import Mathlib

/-!
Verification of the runtime coordination core of the wakey repository:
the Scheduler (`Sched`), the conversation state store (`StateManager`)
and the notification fan-out (`SubscriptionManager`).

The Go code is shallowly embedded: Go maps become association lists,
pointers become indices (`Nat`) into an explicit heap (`List UserData`),
`time.Time`/`time.Duration` become integers, and the concurrent
scheduler becomes an explicit small-step transition system over event
traces (each event is one atomic critical section of the original code).
-/

namespace Wakey

/-! ### Association-list model of Go maps -/

def mapGet {α β : Type} [DecidableEq α] (l : List (α × β)) (k : α) : Option β :=
  match l with
  | [] => none
  | (k', v) :: rest => if k' = k then some v else mapGet rest k

def mapSet {α β : Type} [DecidableEq α] (l : List (α × β)) (k : α) (v : β) : List (α × β) :=
  match l with
  | [] => [(k, v)]
  | (k', v') :: rest => if k' = k then (k, v) :: rest else (k', v') :: mapSet rest k v

def mapDel {α β : Type} [DecidableEq α] (l : List (α × β)) (k : α) : List (α × β) :=
  l.filter (fun p => decide (p.1 ≠ k))

/-! ### StateManager (src/internal/wakey/state_manager.go)

`UserState` is the Go enumeration `UserState int`; `StateNone` is its
zero value.  A `*UserData` pointer is modelled as an index into a heap
`List UserData`; `alloc` appends.  The injected clock `sm.now()` is
passed explicitly to every operation that reads it. -/

abbrev UserState := Nat

def StateNone : UserState := 0

structure UserData where
  state : UserState
  name : String
  bio : String
  plans : String
  targetPlanID : Nat
  askAboutWish : Bool
  lastUpdated : Int
deriving DecidableEq, Repr

def UserData.zero : UserData :=
  ⟨StateNone, "", "", "", 0, false, 0⟩

abbrev Heap := List UserData

def Heap.read (h : Heap) (r : Nat) : UserData :=
  h.getD r UserData.zero

structure StateManager where
  states : List (Int × Nat)
  started : Bool
  isStopped : Bool
deriving DecidableEq, Repr

def NewStateManager : StateManager :=
  ⟨[], false, false⟩

def StateManager.SetState (sm : StateManager) (h : Heap) (userID : Int)
    (st : UserState) (now : Int) : StateManager × Heap :=
  match mapGet sm.states userID with
  | some r =>
      (sm, h.set r { h.read r with state := st, lastUpdated := now })
  | none =>
      ({ sm with states := mapSet sm.states userID h.length },
       h ++ [{ UserData.zero with state := st, lastUpdated := now }])

def StateManager.GetState (sm : StateManager) (h : Heap) (userID : Int) :
    UserState × Bool :=
  match mapGet sm.states userID with
  | some r => ((h.read r).state, true)
  | none => (StateNone, false)

def StateManager.SetUserData (sm : StateManager) (h : Heap) (userID : Int)
    (r : Nat) (now : Int) : StateManager × Heap :=
  ({ sm with states := mapSet sm.states userID r },
   h.set r { h.read r with lastUpdated := now })

def StateManager.GetUserData (sm : StateManager) (userID : Int) : Option Nat :=
  mapGet sm.states userID

def StateManager.ClearState (sm : StateManager) (userID : Int) : StateManager :=
  { sm with states := mapDel sm.states userID }

def StateManager.Start (sm : StateManager) : StateManager :=
  if sm.isStopped then sm else { sm with started := true }

def StateManager.Stop (sm : StateManager) : StateManager :=
  { sm with isStopped := true }

def StateManager.CleanupOldStates (sm : StateManager) (h : Heap)
    (maxAge now : Int) : StateManager :=
  { sm with states :=
      sm.states.filter (fun p => decide (now - (h.read p.2).lastUpdated ≤ maxAge)) }

/-- Shared copying loop of `ImportStates` and `ExportStates`: each record
is copied into a freshly allocated heap cell (`stateCopy := *userData`). -/
def copyStates (h : Heap) : List (Int × Nat) → List (Int × Nat) × Heap
  | [] => ([], h)
  | (uid, r) :: rest =>
      let res := copyStates (h ++ [h.read r]) rest
      ((uid, h.length) :: res.1, res.2)

def StateManager.ImportStates (sm : StateManager) (h : Heap)
    (snapshot : List (Int × Nat)) : Except String (StateManager × Heap) :=
  if sm.isStopped = false ∧ sm.started = true then
    .error "cannot import states while manager is running"
  else
    .ok ({ sm with states := (copyStates h snapshot).1 }, (copyStates h snapshot).2)

def StateManager.ExportStates (sm : StateManager) (h : Heap) :
    Except String (List (Int × Nat) × Heap) :=
  if sm.isStopped = false then
    .error "cannot export states while manager is running"
  else
    .ok ((copyStates h sm.states).1, (copyStates h sm.states).2)

def exOk {ε α : Type} : Except ε α → Bool
  | .ok _ => true
  | .error _ => false

/-! ### Association-list lemmas -/

theorem mapGet_eq_none_of_not_mem {α β : Type} [DecidableEq α] :
    ∀ (l : List (α × β)) (k : α), k ∉ l.map Prod.fst → mapGet l k = none := by
  intro l
  induction l with
  | nil => intro k _; rfl
  | cons p rest ih =>
      intro k hk
      obtain ⟨k', v⟩ := p
      simp only [List.map_cons, List.mem_cons] at hk
      push_neg at hk
      simp only [mapGet]
      rw [if_neg fun h => hk.1 h.symm, ih k hk.2]

theorem mapGet_filter {α β : Type} [DecidableEq α] :
    ∀ (l : List (α × β)) (p : α × β → Bool) (k : α),
      (l.map Prod.fst).Nodup →
      mapGet (l.filter p) k =
        (match mapGet l k with
         | some v => if p (k, v) = true then some v else none
         | none => none) := by
  intro l
  induction l with
  | nil => intro p k _; rfl
  | cons q rest ih =>
      intro p k hnd
      obtain ⟨k', v⟩ := q
      simp only [List.map_cons, List.nodup_cons] at hnd
      by_cases hp : p (k', v) = true
      · by_cases hkk : k' = k
        · subst hkk
          simp only [List.filter_cons, hp, if_true, mapGet, if_pos rfl]
        · simp only [List.filter_cons, hp, if_true, mapGet, if_neg hkk]
          exact ih p k hnd.2
      · by_cases hkk : k' = k
        · subst hkk
          simp only [List.filter_cons, if_neg hp, mapGet, if_pos rfl, if_true]
          apply mapGet_eq_none_of_not_mem
          intro hmem
          obtain ⟨q, hq, hq2⟩ := List.mem_map.mp hmem
          exact hnd.1 (List.mem_map.mpr ⟨q, List.mem_of_mem_filter hq, hq2⟩)
        · simp only [List.filter_cons, if_neg hp, mapGet, if_neg hkk]
          exact ih p k hnd.2

/-! ### Heap lemmas -/

theorem getD_set_self {α : Type} :
    ∀ (l : List α) (i : Nat) (v d : α), i < l.length → (l.set i v).getD i d = v := by
  intro l
  induction l with
  | nil => intro i v d h; simp at h
  | cons a t ih =>
      intro i v d h
      cases i with
      | zero => rfl
      | succ n =>
          simp only [List.set_cons_succ, List.getD_cons_succ]
          exact ih n v d (by simpa using h)

theorem getD_set_other {α : Type} :
    ∀ (l : List α) (i j : Nat) (v d : α), i ≠ j → (l.set i v).getD j d = l.getD j d := by
  intro l
  induction l with
  | nil => intro i j v d _; simp [List.set]
  | cons a t ih =>
      intro i j v d hne
      cases i with
      | zero =>
          cases j with
          | zero => exact absurd rfl hne
          | succ m => rfl
      | succ n =>
          cases j with
          | zero => rfl
          | succ m =>
              simp only [List.set_cons_succ, List.getD_cons_succ]
              exact ih n m v d (fun h => hne (by rw [h]))

theorem getD_append_lt {α : Type} :
    ∀ (l t : List α) (i : Nat) (d : α), i < l.length → (l ++ t).getD i d = l.getD i d := by
  intro l
  induction l with
  | nil => intro t i d h; simp at h
  | cons a l' ih =>
      intro t i d h
      cases i with
      | zero => rfl
      | succ n =>
          simp only [List.cons_append, List.getD_cons_succ]
          exact ih t n d (by simpa using h)

theorem getD_append_length {α : Type} :
    ∀ (l : List α) (t : List α) (d : α), (l ++ t).getD l.length d = t.getD 0 d := by
  intro l
  induction l with
  | nil => intro t d; rfl
  | cons a l' ih =>
      intro t d
      simp only [List.cons_append, List.length_cons, List.getD_cons_succ]
      exact ih t d

/-- C8: `CleanupOldStates(maxAge)` deletes exactly the records whose
`LastUpdated` is older than `maxAge` relative to the current time `now`,
and leaves every other record mapped to its unchanged heap cell (the
heap itself is untouched by the operation, which only shrinks the map). -/
theorem c8_cleanup_threshold (sm : StateManager) (h : Heap) (maxAge now : Int)
    (hnd : (sm.states.map Prod.fst).Nodup) (uid : Int) :
    mapGet (sm.CleanupOldStates h maxAge now).states uid =
      (match mapGet sm.states uid with
       | some r => if now - (h.read r).lastUpdated ≤ maxAge then some r else none
       | none => none) := by
  have hmf := mapGet_filter sm.states
      (fun p => decide (now - (h.read p.2).lastUpdated ≤ maxAge)) uid hnd
  simp only [StateManager.CleanupOldStates]
  rw [hmf]
  cases hg : mapGet sm.states uid with
  | none => rfl
  | some r => simp

/-- Witness for C8: a record written at time 0 survives a cleanup with
`maxAge` 60 run at time 30 and is removed by a cleanup run at time 120. -/
theorem c8_cleanup_threshold_witness :
    mapGet ((StateManager.CleanupOldStates ⟨[(1, 0)], false, false⟩
        [{ UserData.zero with lastUpdated := 0 }] 60 30).states) 1 = some 0 ∧
    mapGet ((StateManager.CleanupOldStates ⟨[(1, 0)], false, false⟩
        [{ UserData.zero with lastUpdated := 0 }] 60 120).states) 1 = none := by
  constructor
  · exact (c8_cleanup_threshold ⟨[(1, 0)], false, false⟩
      [{ UserData.zero with lastUpdated := 0 }] 60 30 (by decide) 1).trans (by decide)
  · exact (c8_cleanup_threshold ⟨[(1, 0)], false, false⟩
      [{ UserData.zero with lastUpdated := 0 }] 60 120 (by decide) 1).trans (by decide)

/-- C10: for a user who already has a record, `SetState` modifies only that
record's `State` and `LastUpdated` fields — `Name`, `Bio`, `Plans`,
`TargetPlanID` and `AskAboutWish` keep their previous values, every other
heap cell is untouched, and the user-to-record map is unchanged — and for a
user with no record it allocates a fresh record whose fields other than
`State` and `LastUpdated` are zero-valued, leaving the existing heap cells
untouched. -/
theorem c10_setstate_frame (sm : StateManager) (h : Heap) (uid : Int)
    (st : UserState) (now : Int) :
    (∀ r, mapGet sm.states uid = some r → r < h.length →
      (sm.SetState h uid st now).1 = sm ∧
      ((sm.SetState h uid st now).2.read r).state = st ∧
      ((sm.SetState h uid st now).2.read r).lastUpdated = now ∧
      ((sm.SetState h uid st now).2.read r).name = (h.read r).name ∧
      ((sm.SetState h uid st now).2.read r).bio = (h.read r).bio ∧
      ((sm.SetState h uid st now).2.read r).plans = (h.read r).plans ∧
      ((sm.SetState h uid st now).2.read r).targetPlanID = (h.read r).targetPlanID ∧
      ((sm.SetState h uid st now).2.read r).askAboutWish = (h.read r).askAboutWish ∧
      (∀ r', r' ≠ r → (sm.SetState h uid st now).2.read r' = h.read r')) ∧
    (mapGet sm.states uid = none →
      (sm.SetState h uid st now).1.states = mapSet sm.states uid h.length ∧
      (sm.SetState h uid st now).2.read h.length =
        { UserData.zero with state := st, lastUpdated := now } ∧
      (∀ r', r' < h.length → (sm.SetState h uid st now).2.read r' = h.read r')) := by
  constructor
  · intro r hr hlt
    simp only [StateManager.SetState, hr]
    have hs : Heap.read (h.set r { h.read r with state := st, lastUpdated := now }) r
        = { h.read r with state := st, lastUpdated := now } :=
      getD_set_self h r _ UserData.zero hlt
    refine ⟨trivial, ?_, ?_, ?_, ?_, ?_, ?_, ?_, ?_⟩
    · rw [hs]
    · rw [hs]
    · rw [hs]
    · rw [hs]
    · rw [hs]
    · rw [hs]
    · rw [hs]
    · intro r' hne
      exact getD_set_other h r r' _ UserData.zero (fun hh => hne hh.symm)
  · intro hr
    simp only [StateManager.SetState, hr]
    refine ⟨trivial, ?_, ?_⟩
    · exact getD_append_length h _ UserData.zero
    · intro r' hlt
      exact getD_append_lt h _ r' UserData.zero hlt

/-- Witness for C10: on a heap with one fully populated record, `SetState`
keeps the old `Name`; on an empty manager it creates a record with the
zero value for `AskAboutWish`. -/
theorem c10_setstate_frame_witness :
    ((StateManager.SetState ⟨[(1, 0)], false, false⟩
        [⟨2, "n", "b", "p", 7, true, 5⟩] 1 3 9).2.read 0).name = "n" ∧
    ((StateManager.SetState ⟨[], false, false⟩ [] 1 3 9).2.read 0).askAboutWish = false := by
  constructor
  · exact ((c10_setstate_frame ⟨[(1, 0)], false, false⟩
      [⟨2, "n", "b", "p", 7, true, 5⟩] 1 3 9).1 0 rfl (by decide)).2.2.2.1.trans rfl
  · have hw := (c10_setstate_frame ⟨[], false, false⟩ [] 1 3 9).2 rfl
    exact (congrArg UserData.askAboutWish hw.2.1).trans rfl

/-- C6: `ImportStates` returns an error if and only if called while the
background sweep is running (a `Start` took effect and `Stop` has not been
called), `ExportStates` returns an error if and only if called before
`Stop` (including on a never-started manager), both errors carry the
descriptive message from the source, and the lifecycle flags behave as the
claim assumes: the constructor yields a non-started, non-stopped manager,
`Start` starts a non-stopped manager and is a no-op after `Stop`, and
`Stop` marks the manager stopped. -/
theorem c6_lifecycle_errors (sm : StateManager) (h : Heap)
    (snapshot : List (Int × Nat)) :
    (exOk (sm.ImportStates h snapshot) = true ↔
      ¬(sm.started = true ∧ sm.isStopped = false)) ∧
    (exOk (sm.ExportStates h) = true ↔ sm.isStopped = true) ∧
    (∀ e, sm.ImportStates h snapshot = .error e →
      e = "cannot import states while manager is running") ∧
    (∀ e, sm.ExportStates h = .error e →
      e = "cannot export states while manager is running") ∧
    NewStateManager.started = false ∧ NewStateManager.isStopped = false ∧
    (sm.isStopped = false → (sm.Start).started = true ∧ (sm.Start).isStopped = false) ∧
    (sm.isStopped = true → sm.Start = sm) ∧
    (sm.Stop).isStopped = true := by
  obtain ⟨sts, b1, b2⟩ := sm
  refine ⟨?_, ?_, ?_, ?_, rfl, rfl, ?_, ?_, rfl⟩ <;>
    cases b1 <;> cases b2 <;>
      simp [StateManager.ImportStates, StateManager.ExportStates,
        StateManager.Start, StateManager.Stop, exOk]

/-- Witness for C6: a started, non-stopped manager rejects `ImportStates`;
a stopped manager accepts `ExportStates`. -/
theorem c6_lifecycle_errors_witness :
    exOk (StateManager.ImportStates ⟨[], true, false⟩ [] []) = false ∧
    exOk (StateManager.ExportStates ⟨[], true, true⟩ []) = true := by
  have h1 := (c6_lifecycle_errors ⟨[], true, false⟩ [] []).1
  have h2 := (c6_lifecycle_errors ⟨[], true, true⟩ [] []).2.1
  constructor
  · exact Bool.eq_false_iff.mpr (fun hh => (h1.mp hh) ⟨rfl, rfl⟩)
  · exact h2.mpr rfl

theorem mapGet_mem {α β : Type} [DecidableEq α] :
    ∀ (l : List (α × β)) (k : α) (v : β), mapGet l k = some v → (k, v) ∈ l := by
  intro l
  induction l with
  | nil => intro k v h; simp [mapGet] at h
  | cons p rest ih =>
      intro k v h
      obtain ⟨k', v'⟩ := p
      by_cases hk : k' = k
      · subst hk
        simp only [mapGet, if_pos rfl] at h
        obtain rfl := Option.some_inj.mp h
        exact List.mem_cons_self _ _
      · simp only [mapGet, if_neg hk] at h
        exact List.mem_cons_of_mem _ (ih k v h)

/-! ### copyStates lemmas (shared by ImportStates and ExportStates) -/

theorem copyStates_heap_shape :
    ∀ (l : List (Int × Nat)) (h : Heap), ∃ tail, (copyStates h l).2 = h ++ tail := by
  intro l
  induction l with
  | nil => intro h; exact ⟨[], by simp [copyStates]⟩
  | cons p rest ih =>
      intro h
      obtain ⟨k, r⟩ := p
      obtain ⟨tail, htail⟩ := ih (h ++ [h.read r])
      exact ⟨[h.read r] ++ tail, by simp [copyStates, htail]⟩

theorem copyStates_keys :
    ∀ (l : List (Int × Nat)) (h : Heap),
      (copyStates h l).1.map Prod.fst = l.map Prod.fst := by
  intro l
  induction l with
  | nil => intro h; rfl
  | cons p rest ih =>
      intro h
      obtain ⟨k, r⟩ := p
      simp only [copyStates, List.map_cons]
      rw [ih]

theorem copyStates_lookup :
    ∀ (l : List (Int × Nat)) (h : Heap) (uid : Int),
      (∀ p ∈ l, p.2 < h.length) →
      (mapGet l uid = none → mapGet (copyStates h l).1 uid = none) ∧
      (∀ r, mapGet l uid = some r →
        ∃ r', mapGet (copyStates h l).1 uid = some r' ∧
          h.length ≤ r' ∧ r' < (copyStates h l).2.length ∧
          Heap.read (copyStates h l).2 r' = h.read r) := by
  intro l
  induction l with
  | nil =>
      intro h uid _
      exact ⟨fun _ => rfl, fun r hr => by simp [mapGet] at hr⟩
  | cons p rest ih =>
      intro h uid hval
      obtain ⟨k, r0⟩ := p
      have hv0 : r0 < h.length := hval (k, r0) (List.mem_cons_self _ _)
      have hvrest : ∀ p ∈ rest, p.2 < (h ++ [h.read r0]).length := by
        intro p hp
        have hpv := hval p (List.mem_cons_of_mem _ hp)
        have hl : (h ++ [h.read r0]).length = h.length + 1 := by simp
        omega
      obtain ⟨tail, htail⟩ := copyStates_heap_shape rest (h ++ [h.read r0])
      by_cases hk : k = uid
      · subst hk
        constructor
        · intro habs
          simp [mapGet] at habs
        · intro r hr
          have hrr : r = r0 := by
            simp only [mapGet, if_pos rfl] at hr
            exact (Option.some_inj.mp hr).symm
          subst hrr
          refine ⟨h.length, ?_, le_refl _, ?_, ?_⟩
          · simp [copyStates, mapGet]
          · have hlen : (copyStates h ((k, r) :: rest)).2 = h ++ [h.read r] ++ tail := by
              simp only [copyStates]
              exact htail
            rw [hlen]
            have hl : (h ++ [h.read r] ++ tail).length = h.length + 1 + tail.length := by
              simp
              omega
            omega
          · simp only [copyStates, htail]
            rw [List.append_assoc]
            have := getD_append_length h ([h.read r] ++ tail) UserData.zero
            simpa [Heap.read] using this
      · have hmg : mapGet ((k, r0) :: rest) uid = mapGet rest uid := by
          simp [mapGet, hk]
        have hmg2 : mapGet (copyStates h ((k, r0) :: rest)).1 uid =
            mapGet (copyStates (h ++ [h.read r0]) rest).1 uid := by
          simp [copyStates, mapGet, hk]
        constructor
        · intro hnone
          rw [hmg] at hnone
          rw [hmg2]
          exact (ih (h ++ [h.read r0]) uid hvrest).1 hnone
        · intro r hr
          rw [hmg] at hr
          obtain ⟨r', h1, h2, h3, h4⟩ := (ih (h ++ [h.read r0]) uid hvrest).2 r hr
          refine ⟨r', by rw [hmg2]; exact h1, ?_, ?_, ?_⟩
          · simp only [List.length_append, List.length_cons, List.length_nil] at h2
            omega
          · simpa [copyStates] using h3
          · have hvr : r < h.length :=
              hval (uid, r) (List.mem_cons_of_mem _ (mapGet_mem rest uid r hr))
            have hread : Heap.read (h ++ [h.read r0]) r = h.read r :=
              getD_append_lt h [h.read r0] r UserData.zero hvr
            have : Heap.read (copyStates (h ++ [h.read r0]) rest).2 r' =
                Heap.read (h ++ [h.read r0]) r := h4
            simp only [copyStates]
            rw [this, hread]

theorem copyStates_refs :
    ∀ (l : List (Int × Nat)) (h : Heap), ∀ p ∈ (copyStates h l).1,
      h.length ≤ p.2 ∧ p.2 < (copyStates h l).2.length := by
  intro l
  induction l with
  | nil => intro h p hp; simp [copyStates] at hp
  | cons q rest ih =>
      intro h p hp
      obtain ⟨k, r⟩ := q
      obtain ⟨tail, htail⟩ := copyStates_heap_shape rest (h ++ [h.read r])
      have hlen2 : (copyStates h ((k, r) :: rest)).2.length = h.length + 1 + tail.length := by
        simp only [copyStates, htail]
        simp
        omega
      have hlen1 : (h ++ [h.read r]).length = h.length + 1 := by simp
      simp only [copyStates, List.mem_cons] at hp
      rcases hp with hp | hp
      · rw [hp]
        refine ⟨le_refl _, ?_⟩
        rw [hlen2]
        omega
      · have hih := ih (h ++ [h.read r]) p hp
        have hlen3 : (copyStates h ((k, r) :: rest)).2.length =
            (copyStates (h ++ [h.read r]) rest).2.length := by
          simp only [copyStates]
        rw [hlen3]
        omega

/-- C7: `ImportStates(m)` on a manager that is not running succeeds,
replaces all records with deep copies of the records of `m` (visible via
`GetUserData`, record for record), and a subsequent `ExportStates` after
`Stop` returns a map equal to `m` record for record.  Both directions
hand over freshly allocated copies: mutating any pre-import heap cell (in
particular every record the caller's map points to) never changes an
imported record, and mutating any exported record never changes an
internal one. -/
theorem c7_import_export_roundtrip (sm : StateManager) (h : Heap)
    (m : List (Int × Nat))
    (hrun : ¬(sm.started = true ∧ sm.isStopped = false))
    (hval : ∀ p ∈ m, p.2 < h.length) :
    ∃ (sm' : StateManager) (h' : Heap), sm.ImportStates h m = .ok (sm', h') ∧
      (∀ uid, (mapGet m uid = none → sm'.GetUserData uid = none) ∧
        (∀ r, mapGet m uid = some r →
          ∃ r', sm'.GetUserData uid = some r' ∧ h.length ≤ r' ∧ r' < h'.length ∧
            Heap.read h' r' = Heap.read h r)) ∧
      (∀ r v uid r', r < h.length → sm'.GetUserData uid = some r' →
        Heap.read (h'.set r v) r' = Heap.read h' r') ∧
      (∃ (out : List (Int × Nat)) (h₂ : Heap),
        (sm'.Stop).ExportStates h' = .ok (out, h₂) ∧
        out.map Prod.fst = m.map Prod.fst ∧
        (∀ uid, (mapGet m uid = none → mapGet out uid = none) ∧
          (∀ r, mapGet m uid = some r →
            ∃ r₂, mapGet out uid = some r₂ ∧ h'.length ≤ r₂ ∧
              Heap.read h₂ r₂ = Heap.read h r)) ∧
        (∀ r₂ v uid r', h'.length ≤ r₂ → sm'.GetUserData uid = some r' →
          Heap.read (h₂.set r₂ v) r' = Heap.read h₂ r' ∧
          Heap.read h₂ r' = Heap.read h' r')) := by
  refine ⟨{ sm with states := (copyStates h m).1 }, (copyStates h m).2, ?_, ?_, ?_, ?_⟩
  · simp only [StateManager.ImportStates]
    rw [if_neg (fun hc => hrun ⟨hc.2, hc.1⟩)]
  · intro uid
    have hlk := copyStates_lookup m h uid hval
    exact ⟨fun hn => hlk.1 hn, fun r hr => hlk.2 r hr⟩
  · intro r v uid r' hrlt hget
    simp only [StateManager.GetUserData] at hget
    rcases hmg : mapGet m uid with _ | r0
    · rw [(copyStates_lookup m h uid hval).1 hmg] at hget
      exact absurd hget (by simp)
    · obtain ⟨r'', h1, h2, _, _⟩ := (copyStates_lookup m h uid hval).2 r0 hmg
      rw [h1] at hget
      obtain rfl := Option.some_inj.mp hget
      exact getD_set_other (copyStates h m).2 r r'' v UserData.zero
        (Nat.ne_of_lt (lt_of_lt_of_le hrlt h2))
  · have hvrefs : ∀ p ∈ (copyStates h m).1, p.2 < (copyStates h m).2.length :=
      fun p hp => (copyStates_refs m h p hp).2
    obtain ⟨tail₂, htail₂⟩ := copyStates_heap_shape (copyStates h m).1 (copyStates h m).2
    refine ⟨(copyStates (copyStates h m).2 (copyStates h m).1).1,
            (copyStates (copyStates h m).2 (copyStates h m).1).2, ?_, ?_, ?_, ?_⟩
    · simp only [StateManager.Stop, StateManager.ExportStates]
      rfl
    · rw [copyStates_keys, copyStates_keys]
    · intro uid
      have hlk1 := copyStates_lookup m h uid hval
      have hlk2 := copyStates_lookup (copyStates h m).1 (copyStates h m).2 uid hvrefs
      constructor
      · intro hn
        exact hlk2.1 (hlk1.1 hn)
      · intro r hr
        obtain ⟨r', h1, h2, h3, h4⟩ := hlk1.2 r hr
        obtain ⟨r₂, g1, g2, g3, g4⟩ := hlk2.2 r' h1
        exact ⟨r₂, g1, g2, g4.trans h4⟩
    · intro r₂ v uid r' hr₂ hget
      simp only [StateManager.GetUserData] at hget
      rcases hmg : mapGet m uid with _ | r0
      · rw [(copyStates_lookup m h uid hval).1 hmg] at hget
        exact absurd hget (by simp)
      · obtain ⟨r'', h1, _, h3, _⟩ := (copyStates_lookup m h uid hval).2 r0 hmg
        rw [h1] at hget
        obtain rfl := Option.some_inj.mp hget
        constructor
        · exact getD_set_other _ r₂ r'' v UserData.zero
            (Nat.ne_of_gt (lt_of_lt_of_le h3 hr₂))
        · rw [htail₂]
          exact getD_append_lt _ tail₂ r'' UserData.zero h3

/-- Witness for C7: importing a one-record snapshot into a fresh manager
succeeds, and exporting after `Stop` succeeds as well. -/
theorem c7_import_export_roundtrip_witness :
    ∃ (sm' : StateManager) (h' : Heap),
      StateManager.ImportStates NewStateManager [⟨1, "a", "b", "c", 2, true, 3⟩]
        [(42, 0)] = .ok (sm', h') ∧
      exOk ((sm'.Stop).ExportStates h') = true := by
  obtain ⟨sm', h', heq, _, _, hc⟩ := c7_import_export_roundtrip NewStateManager
    [⟨1, "a", "b", "c", 2, true, 3⟩] [(42, 0)] (by decide) (by decide)
  obtain ⟨out, h₂, hexp, _⟩ := hc
  exact ⟨sm', h', heq, by rw [hexp]; rfl⟩

/-! ### SubscriptionManager (src/internal/wakey/admin_hadler.go)

A `chan *Wish` is modelled as an `HChan`: a bounded FIFO buffer of wish
identifiers plus a closed flag.  Channels are never deallocated, so the
manager state carries every channel ever created (indexed by creation
order) next to the live subscription map `subs : subscriber id ↦ channel
index`.  `Subscribe` returns the new state together with the subscriber
id captured by the unsubscribe closure and the channel index handed to
the caller; `Unsubscribe` is that closure. -/

structure HChan where
  buf : List Nat
  cap : Nat
  closed : Bool
deriving DecidableEq, Repr

def HChan.empty (cap : Nat) : HChan :=
  ⟨[], cap, false⟩

structure SubscriptionManager where
  subs : List (Nat × Nat)
  chans : List HChan
  nextID : Nat
  warnLog : List (Nat × Nat)
deriving DecidableEq, Repr

def NewSubscriptionManager : SubscriptionManager :=
  ⟨[], [], 0, []⟩

def chanRead (cs : List HChan) (cid : Nat) : HChan :=
  cs.getD cid ⟨[], 0, true⟩

def SubscriptionManager.Subscribe (sm : SubscriptionManager) (bufSize : Nat) :
    SubscriptionManager × Nat × Nat :=
  ({ sm with subs := sm.subs ++ [(sm.nextID, sm.chans.length)],
             chans := sm.chans ++ [HChan.empty bufSize],
             nextID := sm.nextID + 1 },
   sm.nextID, sm.chans.length)

def closeChan (cs : List HChan) (cid : Nat) : List HChan :=
  cs.set cid { chanRead cs cid with closed := true }

def SubscriptionManager.Unsubscribe (sm : SubscriptionManager) (subID : Nat) :
    SubscriptionManager :=
  match mapGet sm.subs subID with
  | some cid =>
      { sm with subs := mapDel sm.subs subID, chans := closeChan sm.chans cid }
  | none => sm

def sendChan (cs : List HChan) (cid : Nat) (w : Nat) : List HChan :=
  cs.set cid { chanRead cs cid with buf := (chanRead cs cid).buf ++ [w] }

def SubscriptionManager.notifyLoop (sm : SubscriptionManager)
    (l : List (Nat × Nat)) (w : Nat) : SubscriptionManager :=
  match l with
  | [] => sm
  | (sid, cid) :: rest =>
      (if (chanRead sm.chans cid).buf.length < (chanRead sm.chans cid).cap
        then { sm with chans := sendChan sm.chans cid w }
        else { sm with warnLog := sm.warnLog ++ [(sid, w)] }).notifyLoop rest w

def SubscriptionManager.Notify (sm : SubscriptionManager) (w : Nat) :
    SubscriptionManager :=
  sm.notifyLoop sm.subs w

def closeList (cs : List HChan) : List (Nat × Nat) → List HChan
  | [] => cs
  | (_, cid) :: rest => closeList (closeChan cs cid) rest

def SubscriptionManager.Close (sm : SubscriptionManager) : SubscriptionManager :=
  { sm with subs := [], chans := closeList sm.chans sm.subs }

inductive HOp
| hsub (bufSize : Nat)
| hunsub (sid : Nat)
| hnotify (w : Nat)
| hclose
deriving DecidableEq, Repr

def hstep (sm : SubscriptionManager) : HOp → SubscriptionManager
  | .hsub n => (sm.Subscribe n).1
  | .hunsub sid => sm.Unsubscribe sid
  | .hnotify w => sm.Notify w
  | .hclose => sm.Close

def hrun (sm : SubscriptionManager) : List HOp → SubscriptionManager
  | [] => sm
  | o :: ops => hrun (hstep sm o) ops

/-- State invariant of the hub: subscriber ids are unique and below
`nextID`, each live subscription owns its own channel (channel indices
are unique and in range), and every channel in the live set is open. -/
def HubInv (sm : SubscriptionManager) : Prop :=
  (sm.subs.map Prod.fst).Nodup ∧
  (sm.subs.map Prod.snd).Nodup ∧
  (∀ p ∈ sm.subs, p.1 < sm.nextID ∧ p.2 < sm.chans.length ∧
    (chanRead sm.chans p.2).closed = false)

instance (sm : SubscriptionManager) : Decidable (HubInv sm) := by
  unfold HubInv
  infer_instance

/-! ### notifyLoop structural lemmas -/

theorem sendChan_length (cs : List HChan) (cid w : Nat) :
    (sendChan cs cid w).length = cs.length := by
  simp [sendChan]

theorem chanRead_sendChan_other (cs : List HChan) (cid c w : Nat) (hne : cid ≠ c) :
    chanRead (sendChan cs cid w) c = chanRead cs c := by
  simp only [sendChan, chanRead]
  exact getD_set_other cs cid c _ _ hne

theorem chanRead_sendChan_self (cs : List HChan) (cid w : Nat) (hlt : cid < cs.length) :
    chanRead (sendChan cs cid w) cid =
      { chanRead cs cid with buf := (chanRead cs cid).buf ++ [w] } := by
  simp only [sendChan, chanRead]
  exact getD_set_self cs cid _ _ hlt

theorem chanRead_sendChan_closed (cs : List HChan) (cid c w : Nat) :
    (chanRead (sendChan cs cid w) c).closed = (chanRead cs c).closed := by
  by_cases hcc : cid = c
  · subst hcc
    by_cases hlt : cid < cs.length
    · rw [chanRead_sendChan_self cs cid w hlt]
    · simp only [sendChan]
      rw [List.set_eq_of_length_le (Nat.le_of_not_lt hlt)]
  · rw [chanRead_sendChan_other cs cid c w hcc]

theorem notifyLoop_subs :
    ∀ (l : List (Nat × Nat)) (sm : SubscriptionManager) (w : Nat),
      (sm.notifyLoop l w).subs = sm.subs := by
  intro l
  induction l with
  | nil => intro sm w; rfl
  | cons p rest ih =>
      intro sm w
      obtain ⟨sid, cid⟩ := p
      by_cases hc : (chanRead sm.chans cid).buf.length < (chanRead sm.chans cid).cap
      · simp only [SubscriptionManager.notifyLoop, if_pos hc]
        exact ih _ w
      · simp only [SubscriptionManager.notifyLoop, if_neg hc]
        exact ih _ w

theorem notifyLoop_nextID :
    ∀ (l : List (Nat × Nat)) (sm : SubscriptionManager) (w : Nat),
      (sm.notifyLoop l w).nextID = sm.nextID := by
  intro l
  induction l with
  | nil => intro sm w; rfl
  | cons p rest ih =>
      intro sm w
      obtain ⟨sid, cid⟩ := p
      by_cases hc : (chanRead sm.chans cid).buf.length < (chanRead sm.chans cid).cap
      · simp only [SubscriptionManager.notifyLoop, if_pos hc]
        exact ih _ w
      · simp only [SubscriptionManager.notifyLoop, if_neg hc]
        exact ih _ w

theorem notifyLoop_chans_length :
    ∀ (l : List (Nat × Nat)) (sm : SubscriptionManager) (w : Nat),
      (sm.notifyLoop l w).chans.length = sm.chans.length := by
  intro l
  induction l with
  | nil => intro sm w; rfl
  | cons p rest ih =>
      intro sm w
      obtain ⟨sid, cid⟩ := p
      by_cases hc : (chanRead sm.chans cid).buf.length < (chanRead sm.chans cid).cap
      · simp only [SubscriptionManager.notifyLoop, if_pos hc]
        rw [ih _ w]
        exact sendChan_length sm.chans cid w
      · simp only [SubscriptionManager.notifyLoop, if_neg hc]
        exact ih _ w

theorem notifyLoop_closed :
    ∀ (l : List (Nat × Nat)) (sm : SubscriptionManager) (w : Nat) (c : Nat),
      (chanRead (sm.notifyLoop l w).chans c).closed = (chanRead sm.chans c).closed := by
  intro l
  induction l with
  | nil => intro sm w c; rfl
  | cons p rest ih =>
      intro sm w c
      obtain ⟨sid, cid⟩ := p
      by_cases hc : (chanRead sm.chans cid).buf.length < (chanRead sm.chans cid).cap
      · simp only [SubscriptionManager.notifyLoop, if_pos hc]
        rw [ih _ w c]
        exact chanRead_sendChan_closed sm.chans cid c w
      · simp only [SubscriptionManager.notifyLoop, if_neg hc]
        exact ih _ w c

theorem notifyLoop_warn_mono :
    ∀ (l : List (Nat × Nat)) (sm : SubscriptionManager) (w : Nat),
      ∃ t, (sm.notifyLoop l w).warnLog = sm.warnLog ++ t := by
  intro l
  induction l with
  | nil => intro sm w; exact ⟨[], by simp [SubscriptionManager.notifyLoop]⟩
  | cons p rest ih =>
      intro sm w
      obtain ⟨sid, cid⟩ := p
      by_cases hc : (chanRead sm.chans cid).buf.length < (chanRead sm.chans cid).cap
      · simp only [SubscriptionManager.notifyLoop, if_pos hc]
        exact ih _ w
      · simp only [SubscriptionManager.notifyLoop, if_neg hc]
        obtain ⟨t, ht⟩ := ih { sm with warnLog := sm.warnLog ++ [(sid, w)] } w
        exact ⟨(sid, w) :: t, by rw [ht]; simp⟩

theorem notifyLoop_untouched :
    ∀ (l : List (Nat × Nat)) (sm : SubscriptionManager) (w : Nat) (c : Nat),
      c ∉ l.map Prod.snd →
      chanRead (sm.notifyLoop l w).chans c = chanRead sm.chans c := by
  intro l
  induction l with
  | nil => intro sm w c _; rfl
  | cons p rest ih =>
      intro sm w c hc
      obtain ⟨sid, cid⟩ := p
      simp only [List.map_cons, List.mem_cons] at hc
      push_neg at hc
      by_cases hcap : (chanRead sm.chans cid).buf.length < (chanRead sm.chans cid).cap
      · simp only [SubscriptionManager.notifyLoop, if_pos hcap]
        rw [ih _ w c hc.2]
        exact chanRead_sendChan_other sm.chans cid c w (fun hh => hc.1 hh.symm)
      · simp only [SubscriptionManager.notifyLoop, if_neg hcap]
        exact ih _ w c hc.2

theorem notifyLoop_deliver :
    ∀ (l : List (Nat × Nat)) (sm : SubscriptionManager) (w : Nat),
      (l.map Prod.snd).Nodup →
      (∀ p ∈ l, p.2 < sm.chans.length) →
      ∀ p ∈ l,
        ((chanRead sm.chans p.2).buf.length < (chanRead sm.chans p.2).cap →
          chanRead (sm.notifyLoop l w).chans p.2 =
            { chanRead sm.chans p.2 with buf := (chanRead sm.chans p.2).buf ++ [w] }) ∧
        (¬(chanRead sm.chans p.2).buf.length < (chanRead sm.chans p.2).cap →
          chanRead (sm.notifyLoop l w).chans p.2 = chanRead sm.chans p.2 ∧
          (p.1, w) ∈ (sm.notifyLoop l w).warnLog) := by
  intro l
  induction l with
  | nil => intro sm w _ _ p hp; simp at hp
  | cons q rest ih =>
      intro sm w hnd hval p hp
      obtain ⟨sid, cid⟩ := q
      simp only [List.map_cons, List.nodup_cons] at hnd
      rcases List.mem_cons.mp hp with hph | hpt
      · subst hph
        by_cases hcap : (chanRead sm.chans cid).buf.length < (chanRead sm.chans cid).cap
        · refine ⟨fun _ => ?_, fun hn => absurd hcap hn⟩
          simp only [SubscriptionManager.notifyLoop, if_pos hcap]
          rw [notifyLoop_untouched rest _ w cid hnd.1]
          exact chanRead_sendChan_self sm.chans cid w
            (hval (sid, cid) (List.mem_cons_self _ _))
        · refine ⟨fun hy => absurd hy hcap, fun _ => ?_⟩
          simp only [SubscriptionManager.notifyLoop, if_neg hcap]
          constructor
          · exact notifyLoop_untouched rest _ w cid hnd.1
          · obtain ⟨t, ht⟩ := notifyLoop_warn_mono rest
              { sm with warnLog := sm.warnLog ++ [(sid, w)] } w
            rw [ht]
            simp
      · have hcid : cid ≠ p.2 := by
          intro hh
          exact hnd.1 (hh ▸ List.mem_map.mpr ⟨p, hpt, rfl⟩)
        by_cases hcap : (chanRead sm.chans cid).buf.length < (chanRead sm.chans cid).cap
        · have hchr : chanRead (sendChan sm.chans cid w) p.2 = chanRead sm.chans p.2 :=
            chanRead_sendChan_other sm.chans cid p.2 w hcid
          have hval2 : ∀ q ∈ rest, q.2 < (sendChan sm.chans cid w).length := by
            intro q hq
            rw [sendChan_length]
            exact hval q (List.mem_cons_of_mem _ hq)
          have hih := ih { sm with chans := sendChan sm.chans cid w } w hnd.2 hval2 p hpt
          simp only [SubscriptionManager.notifyLoop, if_pos hcap]
          rw [hchr] at hih
          exact hih
        · have hih := ih { sm with warnLog := sm.warnLog ++ [(sid, w)] } w hnd.2
            (fun q hq => hval q (List.mem_cons_of_mem _ hq)) p hpt
          simp only [SubscriptionManager.notifyLoop, if_neg hcap]
          exact hih

/-! ### closeChan and closeList lemmas -/

theorem closeChan_length (cs : List HChan) (cid : Nat) :
    (closeChan cs cid).length = cs.length := by
  simp [closeChan]

theorem chanRead_closeChan_other (cs : List HChan) (cid c : Nat) (hne : cid ≠ c) :
    chanRead (closeChan cs cid) c = chanRead cs c := by
  simp only [closeChan, chanRead]
  exact getD_set_other cs cid c _ _ hne

theorem chanRead_closeChan_buf (cs : List HChan) (cid c : Nat) :
    (chanRead (closeChan cs cid) c).buf = (chanRead cs c).buf := by
  by_cases hcc : cid = c
  · subst hcc
    by_cases hlt : cid < cs.length
    · simp only [closeChan, chanRead]
      rw [getD_set_self cs cid _ _ hlt]
    · simp only [closeChan]
      rw [List.set_eq_of_length_le (Nat.le_of_not_lt hlt)]
  · rw [chanRead_closeChan_other cs cid c hcc]

theorem chanRead_closeChan_closed_mono (cs : List HChan) (cid c : Nat)
    (hcl : (chanRead cs c).closed = true) :
    (chanRead (closeChan cs cid) c).closed = true := by
  by_cases hcc : cid = c
  · subst hcc
    by_cases hlt : cid < cs.length
    · simp only [closeChan, chanRead]
      rw [getD_set_self cs cid _ _ hlt]
    · simp only [closeChan]
      rw [List.set_eq_of_length_le (Nat.le_of_not_lt hlt)]
      exact hcl
  · rw [chanRead_closeChan_other cs cid c hcc]
    exact hcl

theorem closeList_length :
    ∀ (l : List (Nat × Nat)) (cs : List HChan), (closeList cs l).length = cs.length := by
  intro l
  induction l with
  | nil => intro cs; rfl
  | cons p rest ih =>
      intro cs
      obtain ⟨s, cid⟩ := p
      simp only [closeList]
      rw [ih, closeChan_length]

theorem chanRead_closeList_buf :
    ∀ (l : List (Nat × Nat)) (cs : List HChan) (c : Nat),
      (chanRead (closeList cs l) c).buf = (chanRead cs c).buf := by
  intro l
  induction l with
  | nil => intro cs c; rfl
  | cons p rest ih =>
      intro cs c
      obtain ⟨s, cid⟩ := p
      simp only [closeList]
      rw [ih, chanRead_closeChan_buf]

theorem chanRead_closeList_closed_mono :
    ∀ (l : List (Nat × Nat)) (cs : List HChan) (c : Nat),
      (chanRead cs c).closed = true →
      (chanRead (closeList cs l) c).closed = true := by
  intro l
  induction l with
  | nil => intro cs c hcl; exact hcl
  | cons p rest ih =>
      intro cs c hcl
      obtain ⟨s, cid⟩ := p
      simp only [closeList]
      exact ih _ c (chanRead_closeChan_closed_mono cs cid c hcl)

/-! ### HubInv preservation -/

theorem hubInv_init : HubInv NewSubscriptionManager := by
  refine ⟨List.nodup_nil, List.nodup_nil, ?_⟩
  intro p hp
  simp [NewSubscriptionManager] at hp

theorem hubInv_subscribe (sm : SubscriptionManager) (n : Nat) (hinv : HubInv sm) :
    HubInv (sm.Subscribe n).1 := by
  obtain ⟨h1, h2, h3⟩ := hinv
  refine ⟨?_, ?_, ?_⟩
  · simp only [SubscriptionManager.Subscribe, List.map_append, List.map_cons, List.map_nil]
    rw [List.nodup_append]
    refine ⟨h1, List.nodup_singleton _, ?_⟩
    intro a ha hb
    rw [List.mem_singleton] at hb
    subst hb
    obtain ⟨p, hp, hfst⟩ := List.mem_map.mp ha
    exact absurd (hfst ▸ (h3 p hp).1) (lt_irrefl _)
  · simp only [SubscriptionManager.Subscribe, List.map_append, List.map_cons, List.map_nil]
    rw [List.nodup_append]
    refine ⟨h2, List.nodup_singleton _, ?_⟩
    intro a ha hb
    rw [List.mem_singleton] at hb
    subst hb
    obtain ⟨p, hp, hsnd⟩ := List.mem_map.mp ha
    exact absurd (hsnd ▸ (h3 p hp).2.1) (lt_irrefl _)
  · intro p hp
    simp only [SubscriptionManager.Subscribe] at hp ⊢
    rcases List.mem_append.mp hp with hold | hnew
    · obtain ⟨b1, b2, b3⟩ := h3 p hold
      refine ⟨Nat.lt_succ_of_lt b1, ?_, ?_⟩
      · rw [List.length_append]
        exact Nat.lt_of_lt_of_le b2 (Nat.le_add_right _ _)
      · simp only [chanRead]
        rw [getD_append_lt sm.chans [HChan.empty n] p.2 _ b2]
        exact b3
    · rw [List.mem_singleton] at hnew
      subst hnew
      refine ⟨Nat.lt_succ_self _, ?_, ?_⟩
      · simp
      · simp only [chanRead]
        rw [getD_append_length]
        rfl

theorem hubInv_unsubscribe (sm : SubscriptionManager) (sid : Nat) (hinv : HubInv sm) :
    HubInv (sm.Unsubscribe sid) := by
  obtain ⟨h1, h2, h3⟩ := hinv
  rcases hmg : mapGet sm.subs sid with _ | cid
  · simpa [SubscriptionManager.Unsubscribe, hmg] using ⟨h1, h2, h3⟩
  · have hpair : (sid, cid) ∈ sm.subs := mapGet_mem sm.subs sid cid hmg
    simp only [SubscriptionManager.Unsubscribe, hmg]
    refine ⟨?_, ?_, ?_⟩
    · exact List.Nodup.sublist ((List.filter_sublist _).map Prod.fst) h1
    · exact List.Nodup.sublist ((List.filter_sublist _).map Prod.snd) h2
    · intro p hp
      have hpsub : p ∈ sm.subs := List.mem_of_mem_filter hp
      have hpne : p.1 ≠ sid := by
        have := List.of_mem_filter hp
        simpa using this
      obtain ⟨b1, b2, b3⟩ := h3 p hpsub
      have hcne : cid ≠ p.2 := by
        intro hh
        have hpe : p = (sid, cid) :=
          List.inj_on_of_nodup_map h2 hpsub hpair (by rw [hh])
        exact hpne (by rw [hpe])
      refine ⟨b1, ?_, ?_⟩
      · rw [closeChan_length]
        exact b2
      · rw [chanRead_closeChan_other sm.chans cid p.2 hcne]
        exact b3

theorem hubInv_notify (sm : SubscriptionManager) (w : Nat) (hinv : HubInv sm) :
    HubInv (sm.Notify w) := by
  obtain ⟨h1, h2, h3⟩ := hinv
  refine ⟨?_, ?_, ?_⟩
  · rw [SubscriptionManager.Notify, notifyLoop_subs]
    exact h1
  · rw [SubscriptionManager.Notify, notifyLoop_subs]
    exact h2
  · intro p hp
    rw [SubscriptionManager.Notify, notifyLoop_subs] at hp
    obtain ⟨b1, b2, b3⟩ := h3 p hp
    refine ⟨?_, ?_, ?_⟩
    · rw [SubscriptionManager.Notify, notifyLoop_nextID]
      exact b1
    · rw [SubscriptionManager.Notify, notifyLoop_chans_length]
      exact b2
    · rw [SubscriptionManager.Notify, notifyLoop_closed]
      exact b3

theorem hubInv_close (sm : SubscriptionManager) : HubInv sm.Close := by
  refine ⟨List.nodup_nil, List.nodup_nil, ?_⟩
  intro p hp
  simp [SubscriptionManager.Close] at hp

theorem hubInv_hstep (sm : SubscriptionManager) (o : HOp) (hinv : HubInv sm) :
    HubInv (hstep sm o) := by
  cases o with
  | hsub n => exact hubInv_subscribe sm n hinv
  | hunsub sid => exact hubInv_unsubscribe sm sid hinv
  | hnotify w => exact hubInv_notify sm w hinv
  | hclose => exact hubInv_close sm

theorem closed_preserved_hstep (sm : SubscriptionManager) (o : HOp) (cid : Nat)
    (hinv : HubInv sm) (hlt : cid < sm.chans.length)
    (hcl : (chanRead sm.chans cid).closed = true) :
    cid < (hstep sm o).chans.length ∧
    (chanRead (hstep sm o).chans cid).closed = true ∧
    (chanRead (hstep sm o).chans cid).buf = (chanRead sm.chans cid).buf := by
  cases o with
  | hsub n =>
      refine ⟨?_, ?_, ?_⟩
      · simp only [hstep, SubscriptionManager.Subscribe, List.length_append]
        exact Nat.lt_of_lt_of_le hlt (Nat.le_add_right _ _)
      · simp only [hstep, SubscriptionManager.Subscribe, chanRead]
        rw [getD_append_lt sm.chans [HChan.empty n] cid _ hlt]
        exact hcl
      · simp only [hstep, SubscriptionManager.Subscribe, chanRead]
        rw [getD_append_lt sm.chans [HChan.empty n] cid _ hlt]
  | hunsub sid =>
      simp only [hstep, SubscriptionManager.Unsubscribe]
      rcases hmg : mapGet sm.subs sid with _ | cid'
      · exact ⟨hlt, hcl, rfl⟩
      · refine ⟨?_, ?_, ?_⟩
        · rw [closeChan_length]
          exact hlt
        · exact chanRead_closeChan_closed_mono sm.chans cid' cid hcl
        · exact chanRead_closeChan_buf sm.chans cid' cid
  | hnotify w =>
      have hnm : cid ∉ sm.subs.map Prod.snd := by
        intro hmem
        obtain ⟨p, hp, hsnd⟩ := List.mem_map.mp hmem
        have := (hinv.2.2 p hp).2.2
        rw [hsnd, hcl] at this
        exact Bool.true_eq_false.mp this
      refine ⟨?_, ?_, ?_⟩
      · simp only [hstep, SubscriptionManager.Notify]
        rw [notifyLoop_chans_length]
        exact hlt
      · simp only [hstep, SubscriptionManager.Notify]
        rw [notifyLoop_untouched sm.subs sm w cid hnm]
        exact hcl
      · simp only [hstep, SubscriptionManager.Notify]
        rw [notifyLoop_untouched sm.subs sm w cid hnm]
  | hclose =>
      refine ⟨?_, ?_, ?_⟩
      · simp only [hstep, SubscriptionManager.Close]
        rw [closeList_length]
        exact hlt
      · exact chanRead_closeList_closed_mono sm.subs sm.chans cid hcl
      · exact chanRead_closeList_buf sm.subs sm.chans cid

theorem closed_preserved_hrun :
    ∀ (ops : List HOp) (sm : SubscriptionManager) (cid : Nat),
      HubInv sm → cid < sm.chans.length →
      (chanRead sm.chans cid).closed = true →
      (chanRead (hrun sm ops).chans cid).closed = true ∧
      (chanRead (hrun sm ops).chans cid).buf = (chanRead sm.chans cid).buf := by
  intro ops
  induction ops with
  | nil => intro sm cid _ _ hcl; exact ⟨hcl, rfl⟩
  | cons o rest ih =>
      intro sm cid hinv hlt hcl
      obtain ⟨s1, s2, s3⟩ := closed_preserved_hstep sm o cid hinv hlt hcl
      obtain ⟨r1, r2⟩ := ih (hstep sm o) cid (hubInv_hstep sm o hinv) s1 s2
      exact ⟨r1, r2.trans s3⟩

theorem mapGet_ne_none_of_mem {α β : Type} [DecidableEq α] :
    ∀ (l : List (α × β)) (k : α) (v : β), (k, v) ∈ l → mapGet l k ≠ none := by
  intro l
  induction l with
  | nil => intro k v h; simp at h
  | cons p rest ih =>
      intro k v h
      obtain ⟨k', v'⟩ := p
      by_cases hk : k' = k
      · subst hk
        simp [mapGet]
      · simp only [mapGet, if_neg hk]
        rcases List.mem_cons.mp h with hh | hh
        · exact absurd (congrArg Prod.fst hh).symm hk
        · exact ih k v hh

theorem mapGet_mapDel_self {α β : Type} [DecidableEq α] (l : List (α × β)) (k : α) :
    mapGet (mapDel l k) k = none := by
  apply mapGet_eq_none_of_not_mem
  intro hmem
  obtain ⟨p, hp, hf⟩ := List.mem_map.mp hmem
  have := List.of_mem_filter hp
  simp only [decide_eq_true_eq] at this
  exact this hf

/-- C5: for every published event, every currently subscribed listener
whose queue has free space receives the event appended to its queue; a
listener whose queue is full has that one event dropped for it alone,
with a warning recorded, while delivery proceeds to every other
listener; channels outside the live subscription set are untouched, the
subscriber set is unchanged, and `Notify` is a total function — it never
blocks and reports nothing to the publisher. -/
theorem c5_notify_fanout (sm : SubscriptionManager) (w : Nat) (hinv : HubInv sm) :
    (∀ p ∈ sm.subs,
      ((chanRead sm.chans p.2).buf.length < (chanRead sm.chans p.2).cap →
        chanRead (sm.Notify w).chans p.2 =
          { chanRead sm.chans p.2 with buf := (chanRead sm.chans p.2).buf ++ [w] }) ∧
      (¬(chanRead sm.chans p.2).buf.length < (chanRead sm.chans p.2).cap →
        chanRead (sm.Notify w).chans p.2 = chanRead sm.chans p.2 ∧
        (p.1, w) ∈ (sm.Notify w).warnLog)) ∧
    (∀ cid, cid ∉ sm.subs.map Prod.snd →
      chanRead (sm.Notify w).chans cid = chanRead sm.chans cid) ∧
    (sm.Notify w).subs = sm.subs := by
  obtain ⟨h1, h2, h3⟩ := hinv
  refine ⟨?_, ?_, notifyLoop_subs _ _ _⟩
  · exact notifyLoop_deliver sm.subs sm w h2 (fun p hp => (h3 p hp).2.1)
  · intro cid hc
    exact notifyLoop_untouched sm.subs sm w cid hc

/-- Witness for C5: with two subscribers, one with a one-slot queue and
one with a zero-capacity queue, a publish delivers to the first and
records a dropped-event warning for the second. -/
theorem c5_notify_fanout_witness :
    chanRead ((hrun NewSubscriptionManager [HOp.hsub 1, HOp.hsub 0]).Notify 7).chans 0 =
      ⟨[7], 1, false⟩ ∧
    (1, 7) ∈ ((hrun NewSubscriptionManager [HOp.hsub 1, HOp.hsub 0]).Notify 7).warnLog := by
  have hc := c5_notify_fanout (hrun NewSubscriptionManager [HOp.hsub 1, HOp.hsub 0]) 7
    (by decide)
  constructor
  · exact ((hc.1 (0, 0) (by decide)).1 (by decide)).trans (by decide)
  · exact ((hc.1 (1, 1) (by decide)).2 (by decide)).2

/-- C9: a delivery queue that has been closed — by its subscription's
unsubscribe closure or by hub shutdown — stays closed and never receives
any further published event under any sequence of hub operations;
calling the unsubscribe closure a second time is a no-op; after one
listener unsubscribes, the remaining subscription set is exactly the
previous one minus that listener, and a subsequent publish leaves the
unsubscribed listener's (now closed) queue untouched. -/
theorem c9_unsubscribe_invariant :
    (∀ (sm : SubscriptionManager) (sid : Nat),
      (sm.Unsubscribe sid).Unsubscribe sid = sm.Unsubscribe sid) ∧
    (∀ (ops : List HOp) (sm : SubscriptionManager) (cid : Nat), HubInv sm →
      cid < sm.chans.length → (chanRead sm.chans cid).closed = true →
      (chanRead (hrun sm ops).chans cid).closed = true ∧
      (chanRead (hrun sm ops).chans cid).buf = (chanRead sm.chans cid).buf) ∧
    (∀ (sm : SubscriptionManager) (sid : Nat) (p : Nat × Nat),
      p ∈ (sm.Unsubscribe sid).subs ↔ p ∈ sm.subs ∧ p.1 ≠ sid) ∧
    (∀ (sm : SubscriptionManager) (sid cid w : Nat), HubInv sm →
      mapGet sm.subs sid = some cid →
      chanRead ((sm.Unsubscribe sid).Notify w).chans cid =
        chanRead (sm.Unsubscribe sid).chans cid ∧
      (chanRead (sm.Unsubscribe sid).chans cid).closed = true) := by
  refine ⟨?_, ?_, ?_, ?_⟩
  · intro sm sid
    rcases hmg : mapGet sm.subs sid with _ | cid
    · have h1 : sm.Unsubscribe sid = sm := by
        simp [SubscriptionManager.Unsubscribe, hmg]
      rw [h1]
      exact h1
    · have h1 : sm.Unsubscribe sid =
          { sm with subs := mapDel sm.subs sid, chans := closeChan sm.chans cid } := by
        simp [SubscriptionManager.Unsubscribe, hmg]
      rw [h1]
      simp [SubscriptionManager.Unsubscribe, mapGet_mapDel_self]
  · exact closed_preserved_hrun
  · intro sm sid p
    rcases hmg : mapGet sm.subs sid with _ | cid
    · have h1 : sm.Unsubscribe sid = sm := by
        simp [SubscriptionManager.Unsubscribe, hmg]
      rw [h1]
      constructor
      · intro hp
        refine ⟨hp, fun hh => ?_⟩
        subst hh
        exact mapGet_ne_none_of_mem sm.subs p.1 p.2 (by simpa using hp) hmg
      · exact fun hp => hp.1
    · have h1 : sm.Unsubscribe sid =
          { sm with subs := mapDel sm.subs sid, chans := closeChan sm.chans cid } := by
        simp [SubscriptionManager.Unsubscribe, hmg]
      rw [h1]
      simp only [mapDel, List.mem_filter, decide_eq_true_eq]
  · intro sm sid cid w hinv hmg
    have hpair : (sid, cid) ∈ sm.subs := mapGet_mem sm.subs sid cid hmg
    obtain ⟨h1, h2, h3⟩ := hinv
    have h1u : sm.Unsubscribe sid =
        { sm with subs := mapDel sm.subs sid, chans := closeChan sm.chans cid } := by
      simp [SubscriptionManager.Unsubscribe, hmg]
    have hnm : cid ∉ (mapDel sm.subs sid).map Prod.snd := by
      intro hmem
      obtain ⟨q, hq, hsnd⟩ := List.mem_map.mp hmem
      have hqsub : q ∈ sm.subs := List.mem_of_mem_filter hq
      have hqne : q.1 ≠ sid := by
        have := List.of_mem_filter hq
        simpa using this
      have hqe : q = (sid, cid) :=
        List.inj_on_of_nodup_map h2 hqsub hpair (by rw [hsnd])
      exact hqne (by rw [hqe])
    constructor
    · rw [h1u]
      exact notifyLoop_untouched _ _ w cid hnm
    · rw [h1u]
      have hlt : cid < sm.chans.length := (h3 (sid, cid) hpair).2.1
      simp only [chanRead, closeChan]
      rw [getD_set_self sm.chans cid _ _ hlt]

/-- Witness for C9: after subscribing two listeners, unsubscribing the
first twice equals unsubscribing it once, and its closed queue receives
nothing from a subsequent publish. -/
theorem c9_unsubscribe_invariant_witness :
    ((hrun NewSubscriptionManager [HOp.hsub 1, HOp.hsub 2]).Unsubscribe 0).Unsubscribe 0 =
      (hrun NewSubscriptionManager [HOp.hsub 1, HOp.hsub 2]).Unsubscribe 0 ∧
    (chanRead (hrun ((hrun NewSubscriptionManager
        [HOp.hsub 1, HOp.hsub 2]).Unsubscribe 0)
      [HOp.hnotify 5]).chans 0).closed = true := by
  constructor
  · exact c9_unsubscribe_invariant.1
      (hrun NewSubscriptionManager [HOp.hsub 1, HOp.hsub 2]) 0
  · exact (c9_unsubscribe_invariant.2.1 [HOp.hnotify 5]
      ((hrun NewSubscriptionManager [HOp.hsub 1, HOp.hsub 2]).Unsubscribe 0) 0
      (by decide) (by decide) (by decide)).1

/-! ### Scheduler (src/unnamed/part_009, type `Sched`)

The concurrent scheduler is embedded as a small-step transition system.
Each event is one atomic critical section of the Go code:

* `esch t0 id` — a call to `Schedule(at, id)` (`t0` is the absolute wall
  clock target).  It stops the previously mapped timer if one exists
  (`timer.Stop()` has an effect only on an armed timer — a fired timer
  stays fired), creates a fresh timer via `time.AfterFunc`, and writes
  the map.  After `Stop` the map is nil, and the map write panics.
* `ecan id` — a call to `Cancel(id)`.
* `efire i` — timer `i`'s `AfterFunc` body runs: enabled once the clock
  has reached its target and the buffered `jobCh` has space (a full
  channel blocks the timer goroutine), it enqueues the job id.
* `edisp acts` — one iteration of the dispatch loop `run`: it dequeues
  an id, invokes the callback (which may re-enter the scheduler; `acts`
  is the sequence of `Schedule`/`Cancel` calls the callback makes), and
  then deletes the id's map entry.
* `etick` — wall-clock time advances.
* `estop` — a call to `Stop()` (a second call panics on the closed
  channel; pending timers mapped in `entries` are stopped and the map
  becomes nil).

`step` returns `none` for an event that is not enabled (or in a dead,
panicked process); `exec` folds a trace.  The `log` records each
callback invocation `fn(id)` with the clock at which it ran. -/

inductive TStatus
| armed
| stoppedT
| firedT
deriving DecidableEq, Repr

structure STimer where
  jid : Nat
  fireAt : Nat
  status : TStatus
deriving DecidableEq, Repr

structure Sched where
  entries : List (Nat × Nat)
  entriesNil : Bool
  timers : List STimer
  queue : List Nat
  cap : Nat
  log : List (Nat × Nat)
  clock : Nat
  doneClosed : Bool
  panicked : Bool
deriving DecidableEq, Repr

def NewSched (maxScheduled : Nat) : Sched :=
  ⟨[], false, [], [], maxScheduled, [], 0, false, false⟩

def stopTimer (ts : List STimer) (i : Nat) : List STimer :=
  match ts[i]? with
  | some t =>
      if t.status = TStatus.armed then ts.set i { t with status := TStatus.stoppedT }
      else ts
  | none => ts

def Sched.Schedule (s : Sched) (t0 : Nat) (id : Nat) : Sched :=
  let ts :=
    match mapGet s.entries id with
    | some i => stopTimer s.timers i
    | none => s.timers
  if s.entriesNil then
    { s with timers := ts ++ [⟨id, t0, TStatus.armed⟩], panicked := true }
  else
    { s with timers := ts ++ [⟨id, t0, TStatus.armed⟩],
             entries := mapSet s.entries id ts.length }

def Sched.Cancel (s : Sched) (id : Nat) : Sched :=
  match mapGet s.entries id with
  | some i =>
      { s with timers := stopTimer s.timers i, entries := mapDel s.entries id }
  | none => s

def stopAllEntries (ts : List STimer) : List (Nat × Nat) → List STimer
  | [] => ts
  | (_, i) :: rest => stopAllEntries (stopTimer ts i) rest

inductive CAct
| csch (t0 : Nat) (id : Nat)
| ccan (id : Nat)
deriving DecidableEq, Repr

def Sched.applyAct (s : Sched) : CAct → Sched
  | .csch t0 id => s.Schedule t0 id
  | .ccan id => s.Cancel id

inductive Ev
| esch (t0 : Nat) (id : Nat)
| ecan (id : Nat)
| efire (i : Nat)
| edisp (acts : List CAct)
| etick
| estop
deriving DecidableEq, Repr

def Sched.step (s : Sched) (e : Ev) : Option Sched :=
  if s.panicked then none
  else
    match e with
    | .esch t0 id => some (s.Schedule t0 id)
    | .ecan id => some (s.Cancel id)
    | .efire i =>
        match s.timers[i]? with
        | some tm =>
            if tm.status = TStatus.armed ∧ tm.fireAt ≤ s.clock ∧
                s.queue.length < s.cap then
              some { s with timers := s.timers.set i { tm with status := TStatus.firedT },
                            queue := s.queue ++ [tm.jid] }
            else none
        | none => none
    | .edisp acts =>
        if s.doneClosed then none
        else
          match s.queue with
          | [] => none
          | id :: rest =>
              some
                (let s2 := acts.foldl Sched.applyAct
                  { s with queue := rest, log := s.log ++ [(id, s.clock)] }
                { s2 with entries := mapDel s2.entries id })
    | .etick => some { s with clock := s.clock + 1 }
    | .estop =>
        if s.doneClosed then some { s with panicked := true }
        else some { s with doneClosed := true,
                           timers := stopAllEntries s.timers s.entries,
                           entries := [], entriesNil := true }

def Sched.exec (s : Sched) : List Ev → Option Sched
  | [] => some s
  | e :: tr =>
      match s.step e with
      | some s2 => s2.exec tr
      | none => none

/-- Number of armed (live, pending) timers registered for job `id`. -/
def armedFor (s : Sched) (id : Nat) : Nat :=
  (s.timers.filter (fun t => decide (t.jid = id) && decide (t.status = TStatus.armed))).length

/-! ### C1: exactly-once firing for a single schedule

Traces restricted to a single `Schedule(a0, id0)` call, no `Cancel`, no
`Stop`, and a callback that does not re-enter the scheduler.  The
reachable states then form a four-phase machine: before the schedule,
timer armed, firing enqueued, callback delivered. -/

def evOk1 (a0 id0 : Nat) : Ev → Bool
  | .esch t0 j => decide (t0 = a0) && decide (j = id0)
  | .ecan _ => false
  | .efire _ => true
  | .edisp acts => acts.isEmpty
  | .etick => true
  | .estop => false

def schCount : List Ev → Nat
  | [] => 0
  | Ev.esch _ _ :: tr => schCount tr + 1
  | Ev.ecan _ :: tr => schCount tr
  | Ev.efire _ :: tr => schCount tr
  | Ev.edisp _ :: tr => schCount tr
  | Ev.etick :: tr => schCount tr
  | Ev.estop :: tr => schCount tr

theorem schCount_cons (e : Ev) (tr : List Ev) :
    schCount (e :: tr) = schCount [e] + schCount tr := by
  cases e
  all_goals simp [schCount]
  omega

def mkA (cap k : Nat) : Sched :=
  ⟨[], false, [], [], cap, [], k, false, false⟩

def mkB1 (cap k a0 id0 : Nat) : Sched :=
  ⟨[(id0, 0)], false, [⟨id0, a0, TStatus.armed⟩], [], cap, [], k, false, false⟩

def mkB2 (cap k a0 id0 : Nat) : Sched :=
  ⟨[(id0, 0)], false, [⟨id0, a0, TStatus.firedT⟩], [id0], cap, [], k, false, false⟩

def mkB3 (cap k a0 id0 t : Nat) : Sched :=
  ⟨[], false, [⟨id0, a0, TStatus.firedT⟩], [], cap, [(id0, t)], k, false, false⟩

def C1Inv (cap a0 id0 n : Nat) (s : Sched) : Prop :=
  (n = 0 ∧ ∃ k, s = mkA cap k) ∨
  (n = 1 ∧ ∃ k, s = mkB1 cap k a0 id0) ∨
  (n = 1 ∧ ∃ k, a0 ≤ k ∧ s = mkB2 cap k a0 id0) ∨
  (n = 1 ∧ ∃ k t, a0 ≤ t ∧ s = mkB3 cap k a0 id0 t)

theorem c1_inv_step (cap a0 id0 n : Nat) (s s2 : Sched) (e : Ev)
    (hinv : C1Inv cap a0 id0 n s) (hok : evOk1 a0 id0 e = true)
    (hn : n + schCount [e] ≤ 1)
    (hstep : s.step e = some s2) :
    C1Inv cap a0 id0 (n + schCount [e]) s2 := by
  cases e with
  | ecan id => simp [evOk1] at hok
  | estop => simp [evOk1] at hok
  | esch t0 j =>
      simp only [evOk1, Bool.and_eq_true, decide_eq_true_eq] at hok
      obtain ⟨rfl, rfl⟩ := hok
      have hn0 : n = 0 := by
        simp only [schCount] at hn
        omega
      subst hn0
      rcases hinv with ⟨_, k, rfl⟩ | ⟨hn1, _⟩ | ⟨hn1, _⟩ | ⟨hn1, _⟩
      · simp only [Sched.step, mkA, Sched.Schedule, mapGet, mapSet,
          Bool.false_eq_true, if_false, Option.some_inj] at hstep
        refine Or.inr (Or.inl ⟨rfl, k, ?_⟩)
        rw [← hstep]
        rfl
      · omega
      · omega
      · omega
  | efire i =>
      have hsc : schCount [Ev.efire i] = 0 := rfl
      rw [hsc]
      rcases hinv with ⟨hn0, k, rfl⟩ | ⟨hn1, k, rfl⟩ | ⟨hn1, k, hk, rfl⟩ |
        ⟨hn1, k, t, ht, rfl⟩
      · simp [Sched.step, mkA] at hstep
      · cases i with
        | zero =>
            simp only [Sched.step, mkB1, Bool.false_eq_true, if_false,
              List.getElem?_cons_zero, List.getElem?_cons_succ, List.getElem?_nil, List.length_nil, true_and] at hstep
            by_cases hc : a0 ≤ k ∧ 0 < cap
            · rw [if_pos hc] at hstep
              obtain rfl := Option.some_inj.mp hstep
              refine Or.inr (Or.inr (Or.inl ⟨hn1, k, hc.1, ?_⟩))
              rfl
            · rw [if_neg hc] at hstep
              exact Option.noConfusion hstep
        | succ m =>
            simp [Sched.step, mkB1, List.getElem?_cons_zero, List.getElem?_cons_succ, List.getElem?_nil] at hstep
      · cases i with
        | zero =>
            simp only [Sched.step, mkB2, Bool.false_eq_true, if_false,
              List.getElem?_cons_zero, List.getElem?_cons_succ, List.getElem?_nil] at hstep
            rw [if_neg (by simp)] at hstep
            exact Option.noConfusion hstep
        | succ m =>
            simp [Sched.step, mkB2, List.getElem?_cons_zero, List.getElem?_cons_succ, List.getElem?_nil] at hstep
      · cases i with
        | zero =>
            simp only [Sched.step, mkB3, Bool.false_eq_true, if_false,
              List.getElem?_cons_zero, List.getElem?_cons_succ, List.getElem?_nil] at hstep
            rw [if_neg (by simp)] at hstep
            exact Option.noConfusion hstep
        | succ m =>
            simp [Sched.step, mkB3, List.getElem?_cons_zero, List.getElem?_cons_succ, List.getElem?_nil] at hstep
  | edisp acts =>
      have hsc : schCount [Ev.edisp acts] = 0 := rfl
      rw [hsc]
      have hacts : acts = [] := by
        simpa [evOk1, List.isEmpty_iff] using hok
      subst hacts
      rcases hinv with ⟨hn0, k, rfl⟩ | ⟨hn1, k, rfl⟩ | ⟨hn1, k, hk, rfl⟩ |
        ⟨hn1, k, t, ht, rfl⟩
      · simp [Sched.step, mkA] at hstep
      · simp [Sched.step, mkB1] at hstep
      · simp only [Sched.step, mkB2, Bool.false_eq_true, if_false,
          List.foldl_nil, Option.some_inj] at hstep
        refine Or.inr (Or.inr (Or.inr ⟨hn1, k, k, hk, ?_⟩))
        rw [← hstep]
        simp [mkB3, mapDel]
      · simp [Sched.step, mkB3] at hstep
  | etick =>
      have hsc : schCount [Ev.etick] = 0 := rfl
      rw [hsc]
      rcases hinv with ⟨hn0, k, rfl⟩ | ⟨hn1, k, rfl⟩ | ⟨hn1, k, hk, rfl⟩ |
        ⟨hn1, k, t, ht, rfl⟩
      · simp only [Sched.step, mkA, Bool.false_eq_true, if_false,
          Option.some_inj] at hstep
        exact Or.inl ⟨hn0, k + 1, by rw [← hstep]; rfl⟩
      · simp only [Sched.step, mkB1, Bool.false_eq_true, if_false,
          Option.some_inj] at hstep
        exact Or.inr (Or.inl ⟨hn1, k + 1, by rw [← hstep]; rfl⟩)
      · simp only [Sched.step, mkB2, Bool.false_eq_true, if_false,
          Option.some_inj] at hstep
        exact Or.inr (Or.inr (Or.inl ⟨hn1, k + 1, Nat.le_succ_of_le hk,
          by rw [← hstep]; rfl⟩))
      · simp only [Sched.step, mkB3, Bool.false_eq_true, if_false,
          Option.some_inj] at hstep
        exact Or.inr (Or.inr (Or.inr ⟨hn1, k + 1, t, ht, by rw [← hstep]; rfl⟩))

theorem exec_nil (s : Sched) : s.exec [] = some s := rfl

theorem exec_cons (s : Sched) (e : Ev) (tr : List Ev) :
    s.exec (e :: tr) =
      (match s.step e with
       | some s1 => s1.exec tr
       | none => none) := rfl

theorem exec_cons_some {s s1 : Sched} {e : Ev} (tr : List Ev)
    (h : s.step e = some s1) : s.exec (e :: tr) = s1.exec tr := by
  rw [exec_cons, h]

theorem exec_append :
    ∀ (tr1 tr2 : List Ev) (s : Sched),
      s.exec (tr1 ++ tr2) =
        (match s.exec tr1 with
         | some s1 => s1.exec tr2
         | none => none) := by
  intro tr1
  induction tr1 with
  | nil => intro tr2 s; rfl
  | cons e tr ih =>
      intro tr2 s
      simp only [List.cons_append, exec_cons]
      rcases hs : s.step e with _ | s1
      · rfl
      · exact ih tr2 s1

theorem exec_ticks :
    ∀ (n : Nat) (s : Sched), s.panicked = false →
      s.exec (List.replicate n Ev.etick) = some { s with clock := s.clock + n } := by
  intro n
  induction n with
  | zero => intro s hp; rfl
  | succ m ih =>
      intro s hp
      rw [List.replicate_succ]
      have hst : s.step Ev.etick = some { s with clock := s.clock + 1 } := by
        simp [Sched.step, hp]
      rw [exec_cons_some (List.replicate m Ev.etick) hst]
      rw [ih { s with clock := s.clock + 1 } hp]
      have harith : s.clock + 1 + m = s.clock + (m + 1) := by omega
      simp only [harith]

theorem c1_inv_exec :
    ∀ (tr : List Ev) (cap a0 id0 n : Nat) (s s2 : Sched),
      C1Inv cap a0 id0 n s → (∀ e ∈ tr, evOk1 a0 id0 e = true) →
      n + schCount tr ≤ 1 → s.exec tr = some s2 →
      C1Inv cap a0 id0 (n + schCount tr) s2 := by
  intro tr
  induction tr with
  | nil =>
      intro cap a0 id0 n s s2 hinv _ _ hexec
      obtain rfl := Option.some_inj.mp hexec
      simpa [schCount] using hinv
  | cons e tr ih =>
      intro cap a0 id0 n s s2 hinv hok hle hexec
      rw [schCount_cons] at hle
      rw [schCount_cons]
      rw [exec_cons] at hexec
      rcases hs : s.step e with _ | s1
      · rw [hs] at hexec
        exact Option.noConfusion hexec
      · rw [hs] at hexec
        have h1 := c1_inv_step cap a0 id0 n s s1 e hinv
          (hok e (List.mem_cons_self _ _)) (by omega) hs
        have h2 := ih cap a0 id0 (n + schCount [e]) s1 s2 h1
          (fun e2 he2 => hok e2 (List.mem_cons_of_mem _ he2)) (by omega) hexec
        have harith : n + schCount [e] + schCount tr =
            n + (schCount [e] + schCount tr) := by omega
        rw [harith] at h2
        exact h2

/-- C1: scheduling `(a0, id0)` once and never canceling makes `fn(id0)`
run exactly once, at a clock no earlier than `a0` — in any interleaving
of timer firing, dispatch and clock ticks that runs the process to
quiescence (no armed timer, empty queue) — and when `a0` is already in
the past the firing and dispatch are enabled immediately, with no
intervening tick: the schedule-fire-dispatch trace runs `fn(id0)` at the
very clock at which `Schedule` was called. -/
theorem c1_schedule_exactly_once (cap a0 id0 : Nat) (tr : List Ev) (s : Sched)
    (hcap : 1 ≤ cap)
    (hok : ∀ e ∈ tr, evOk1 a0 id0 e = true)
    (hone : schCount tr = 1)
    (hexec : (NewSched cap).exec tr = some s)
    (hquiet : (∀ tm ∈ s.timers, tm.status ≠ TStatus.armed) ∧ s.queue = []) :
    (∃ t, s.log = [(id0, t)] ∧ a0 ≤ t) ∧
    (∀ n, a0 ≤ n →
      ((NewSched cap).exec (List.replicate n Ev.etick ++
        [Ev.esch a0 id0, Ev.efire 0, Ev.edisp []])).map Sched.log =
        some [(id0, n)]) := by
  constructor
  · have hinv0 : C1Inv cap a0 id0 0 (NewSched cap) := Or.inl ⟨rfl, 0, rfl⟩
    have hfin := c1_inv_exec tr cap a0 id0 0 (NewSched cap) s hinv0 hok
      (by omega) hexec
    have hfin1 : C1Inv cap a0 id0 1 s := by
      rw [hone] at hfin
      simpa using hfin
    rcases hfin1 with ⟨h0, _⟩ | ⟨_, k, rfl⟩ | ⟨_, k, hk, rfl⟩ | ⟨_, k, t, ht, rfl⟩
    · exact absurd h0 (by omega)
    · exact absurd rfl (hquiet.1 ⟨id0, a0, TStatus.armed⟩ (by simp [mkB1]))
    · exact absurd hquiet.2 (by simp [mkB2])
    · exact ⟨t, rfl, ht⟩
  · intro n hn
    have hstep1 : (mkA cap n).step (Ev.esch a0 id0) = some (mkB1 cap n a0 id0) := by
      simp [Sched.step, mkA, Sched.Schedule, mapGet, mapSet, mkB1]
    have hstep2 : (mkB1 cap n a0 id0).step (Ev.efire 0) = some (mkB2 cap n a0 id0) := by
      simp only [Sched.step, mkB1, Bool.false_eq_true, if_false, List.getElem?_cons_zero, List.getElem?_cons_succ, List.getElem?_nil,
        List.length_nil, true_and]
      rw [if_pos ⟨hn, hcap⟩]
      rfl
    have hstep3 : (mkB2 cap n a0 id0).step (Ev.edisp []) =
        some (mkB3 cap n a0 id0 n) := by
      simp [Sched.step, mkB2, mkB3, mapDel]
    have h1 : { NewSched cap with clock := (NewSched cap).clock + n } = mkA cap n := by
      simp [NewSched, mkA]
    rw [exec_append, exec_ticks n (NewSched cap) rfl, h1]
    simp only [exec_cons, hstep1, hstep2, hstep3, exec_nil]
    rfl

/-- Witness for C1: the trace schedule at 0, fire, dispatch on a fresh
one-slot scheduler logs exactly one firing of job 7 at clock 0. -/
theorem c1_schedule_exactly_once_witness :
    ∃ t, (((NewSched 1).exec [Ev.esch 0 7, Ev.efire 0, Ev.edisp []]).getD
        (NewSched 1)).log = [(7, t)] ∧ 0 ≤ t := by
  have hexec : (NewSched 1).exec [Ev.esch 0 7, Ev.efire 0, Ev.edisp []] =
      some (((NewSched 1).exec [Ev.esch 0 7, Ev.efire 0, Ev.edisp []]).getD
        (NewSched 1)) := rfl
  exact (c1_schedule_exactly_once 1 0 7 _ _ (by decide) (by decide) (by decide)
    hexec (by decide)).1

/-! ### C2: last-write-wins rescheduling

The claim as stated fails on the code: if the first timer has already
fired into `jobCh` (but the firing has not yet been dispatched) when the
second `Schedule` call for the same id is made, `timer.Stop()` is a
no-op on the fired timer, the stale firing is still delivered, and the
post-callback `delete(s.entries, id)` removes the *new* timer's map
entry, after which the new timer fires as well: the callback runs twice.
The amended claim restricts the race window: if the second call happens
before the first timer fires, exactly one firing happens, at or after
the second scheduled time. -/

def evOkPre (a1 id0 : Nat) : Ev → Bool
  | .esch t0 j => decide (t0 = a1) && decide (j = id0)
  | .ecan _ => false
  | .efire _ => false
  | .edisp acts => acts.isEmpty
  | .etick => true
  | .estop => false

def evOk2 : Ev → Bool
  | .esch _ _ => false
  | .ecan _ => false
  | .efire _ => true
  | .edisp acts => acts.isEmpty
  | .etick => true
  | .estop => false

def mkC1 (cap k a1 a2 id0 : Nat) : Sched :=
  ⟨[(id0, 1)], false, [⟨id0, a1, TStatus.stoppedT⟩, ⟨id0, a2, TStatus.armed⟩],
   [], cap, [], k, false, false⟩

def mkC2 (cap k a1 a2 id0 : Nat) : Sched :=
  ⟨[(id0, 1)], false, [⟨id0, a1, TStatus.stoppedT⟩, ⟨id0, a2, TStatus.firedT⟩],
   [id0], cap, [], k, false, false⟩

def mkC3 (cap k a1 a2 id0 t : Nat) : Sched :=
  ⟨[], false, [⟨id0, a1, TStatus.stoppedT⟩, ⟨id0, a2, TStatus.firedT⟩],
   [], cap, [(id0, t)], k, false, false⟩

def C2PreInv (cap a1 id0 n : Nat) (s : Sched) : Prop :=
  (n = 0 ∧ ∃ k, s = mkA cap k) ∨ (n = 1 ∧ ∃ k, s = mkB1 cap k a1 id0)

def C2PostInv (cap a1 a2 id0 : Nat) (s : Sched) : Prop :=
  (∃ k, s = mkC1 cap k a1 a2 id0) ∨
  (∃ k, a2 ≤ k ∧ s = mkC2 cap k a1 a2 id0) ∨
  (∃ k t, a2 ≤ t ∧ s = mkC3 cap k a1 a2 id0 t)

theorem c2_pre_step (cap a1 id0 n : Nat) (s s2 : Sched) (e : Ev)
    (hinv : C2PreInv cap a1 id0 n s) (hok : evOkPre a1 id0 e = true)
    (hn : n + schCount [e] ≤ 1) (hstep : s.step e = some s2) :
    C2PreInv cap a1 id0 (n + schCount [e]) s2 := by
  cases e with
  | ecan id => simp [evOkPre] at hok
  | estop => simp [evOkPre] at hok
  | efire i => simp [evOkPre] at hok
  | esch t0 j =>
      simp only [evOkPre, Bool.and_eq_true, decide_eq_true_eq] at hok
      obtain ⟨rfl, rfl⟩ := hok
      have hn0 : n = 0 := by
        simp only [schCount] at hn
        omega
      subst hn0
      rcases hinv with ⟨_, k, rfl⟩ | ⟨hn1, _⟩
      · simp only [Sched.step, mkA, Sched.Schedule, mapGet, mapSet,
          Bool.false_eq_true, if_false, Option.some_inj] at hstep
        refine Or.inr ⟨rfl, k, ?_⟩
        rw [← hstep]
        rfl
      · omega
  | edisp acts =>
      have hacts : acts = [] := by
        simpa [evOkPre, List.isEmpty_iff] using hok
      subst hacts
      rcases hinv with ⟨hn0, k, rfl⟩ | ⟨hn1, k, rfl⟩
      · simp [Sched.step, mkA] at hstep
      · simp [Sched.step, mkB1] at hstep
  | etick =>
      have hsc : schCount [Ev.etick] = 0 := rfl
      rw [hsc]
      rcases hinv with ⟨hn0, k, rfl⟩ | ⟨hn1, k, rfl⟩
      · simp only [Sched.step, mkA, Bool.false_eq_true, if_false,
          Option.some_inj] at hstep
        exact Or.inl ⟨hn0, k + 1, by rw [← hstep]; rfl⟩
      · simp only [Sched.step, mkB1, Bool.false_eq_true, if_false,
          Option.some_inj] at hstep
        exact Or.inr ⟨hn1, k + 1, by rw [← hstep]; rfl⟩

theorem c2_pre_exec :
    ∀ (tr : List Ev) (cap a1 id0 n : Nat) (s s2 : Sched),
      C2PreInv cap a1 id0 n s → (∀ e ∈ tr, evOkPre a1 id0 e = true) →
      n + schCount tr ≤ 1 → s.exec tr = some s2 →
      C2PreInv cap a1 id0 (n + schCount tr) s2 := by
  intro tr
  induction tr with
  | nil =>
      intro cap a1 id0 n s s2 hinv _ _ hexec
      obtain rfl := Option.some_inj.mp hexec
      simpa [schCount] using hinv
  | cons e tr ih =>
      intro cap a1 id0 n s s2 hinv hok hle hexec
      rw [schCount_cons] at hle
      rw [schCount_cons]
      rw [exec_cons] at hexec
      rcases hs : s.step e with _ | s1
      · rw [hs] at hexec
        exact Option.noConfusion hexec
      · rw [hs] at hexec
        have h1 := c2_pre_step cap a1 id0 n s s1 e hinv
          (hok e (List.mem_cons_self _ _)) (by omega) hs
        have h2 := ih cap a1 id0 (n + schCount [e]) s1 s2 h1
          (fun e2 he2 => hok e2 (List.mem_cons_of_mem _ he2)) (by omega) hexec
        have harith : n + schCount [e] + schCount tr =
            n + (schCount [e] + schCount tr) := by omega
        rw [harith] at h2
        exact h2

theorem c2_post_step (cap a1 a2 id0 : Nat) (s s2 : Sched) (e : Ev)
    (hinv : C2PostInv cap a1 a2 id0 s) (hok : evOk2 e = true)
    (hstep : s.step e = some s2) :
    C2PostInv cap a1 a2 id0 s2 := by
  cases e with
  | esch t0 j => simp [evOk2] at hok
  | ecan id => simp [evOk2] at hok
  | estop => simp [evOk2] at hok
  | efire i =>
      rcases hinv with ⟨k, rfl⟩ | ⟨k, hk, rfl⟩ | ⟨k, t, ht, rfl⟩
      · cases i with
        | zero =>
            simp only [Sched.step, mkC1, Bool.false_eq_true, if_false,
              List.getElem?_cons_zero, List.getElem?_cons_succ, List.getElem?_nil] at hstep
            rw [if_neg (by simp)] at hstep
            exact Option.noConfusion hstep
        | succ m =>
            cases m with
            | zero =>
                simp only [Sched.step, mkC1, Bool.false_eq_true, if_false,
                  List.getElem?_cons_zero, List.getElem?_cons_succ, List.getElem?_nil, List.length_nil, true_and] at hstep
                by_cases hc : a2 ≤ k ∧ 0 < cap
                · rw [if_pos hc] at hstep
                  obtain rfl := Option.some_inj.mp hstep
                  refine Or.inr (Or.inl ⟨k, hc.1, ?_⟩)
                  rfl
                · rw [if_neg hc] at hstep
                  exact Option.noConfusion hstep
            | succ m2 =>
                simp [Sched.step, mkC1, List.getElem?_cons_zero, List.getElem?_cons_succ, List.getElem?_nil] at hstep
      · cases i with
        | zero =>
            simp only [Sched.step, mkC2, Bool.false_eq_true, if_false,
              List.getElem?_cons_zero, List.getElem?_cons_succ, List.getElem?_nil] at hstep
            rw [if_neg (by simp)] at hstep
            exact Option.noConfusion hstep
        | succ m =>
            cases m with
            | zero =>
                simp only [Sched.step, mkC2, Bool.false_eq_true, if_false,
                  List.getElem?_cons_zero, List.getElem?_cons_succ, List.getElem?_nil] at hstep
                rw [if_neg (by simp)] at hstep
                exact Option.noConfusion hstep
            | succ m2 =>
                simp [Sched.step, mkC2, List.getElem?_cons_zero, List.getElem?_cons_succ, List.getElem?_nil] at hstep
      · cases i with
        | zero =>
            simp only [Sched.step, mkC3, Bool.false_eq_true, if_false,
              List.getElem?_cons_zero, List.getElem?_cons_succ, List.getElem?_nil] at hstep
            rw [if_neg (by simp)] at hstep
            exact Option.noConfusion hstep
        | succ m =>
            cases m with
            | zero =>
                simp only [Sched.step, mkC3, Bool.false_eq_true, if_false,
                  List.getElem?_cons_zero, List.getElem?_cons_succ, List.getElem?_nil] at hstep
                rw [if_neg (by simp)] at hstep
                exact Option.noConfusion hstep
            | succ m2 =>
                simp [Sched.step, mkC3, List.getElem?_cons_zero, List.getElem?_cons_succ, List.getElem?_nil] at hstep
  | edisp acts =>
      have hacts : acts = [] := by
        simpa [evOk2, List.isEmpty_iff] using hok
      subst hacts
      rcases hinv with ⟨k, rfl⟩ | ⟨k, hk, rfl⟩ | ⟨k, t, ht, rfl⟩
      · simp [Sched.step, mkC1] at hstep
      · simp only [Sched.step, mkC2, Bool.false_eq_true, if_false,
          List.foldl_nil, Option.some_inj] at hstep
        refine Or.inr (Or.inr ⟨k, k, hk, ?_⟩)
        rw [← hstep]
        simp [mkC3, mapDel]
      · simp [Sched.step, mkC3] at hstep
  | etick =>
      rcases hinv with ⟨k, rfl⟩ | ⟨k, hk, rfl⟩ | ⟨k, t, ht, rfl⟩
      · simp only [Sched.step, mkC1, Bool.false_eq_true, if_false,
          Option.some_inj] at hstep
        exact Or.inl ⟨k + 1, by rw [← hstep]; rfl⟩
      · simp only [Sched.step, mkC2, Bool.false_eq_true, if_false,
          Option.some_inj] at hstep
        exact Or.inr (Or.inl ⟨k + 1, Nat.le_succ_of_le hk, by rw [← hstep]; rfl⟩)
      · simp only [Sched.step, mkC3, Bool.false_eq_true, if_false,
          Option.some_inj] at hstep
        exact Or.inr (Or.inr ⟨k + 1, t, ht, by rw [← hstep]; rfl⟩)

theorem c2_post_exec :
    ∀ (tr : List Ev) (cap a1 a2 id0 : Nat) (s s2 : Sched),
      C2PostInv cap a1 a2 id0 s → (∀ e ∈ tr, evOk2 e = true) →
      s.exec tr = some s2 → C2PostInv cap a1 a2 id0 s2 := by
  intro tr
  induction tr with
  | nil =>
      intro cap a1 a2 id0 s s2 hinv _ hexec
      obtain rfl := Option.some_inj.mp hexec
      exact hinv
  | cons e tr ih =>
      intro cap a1 a2 id0 s s2 hinv hok hexec
      rw [exec_cons] at hexec
      rcases hs : s.step e with _ | s1
      · rw [hs] at hexec
        exact Option.noConfusion hexec
      · rw [hs] at hexec
        exact ih cap a1 a2 id0 s1 s2
          (c2_post_step cap a1 a2 id0 s s1 e hinv (hok e (List.mem_cons_self _ _)) hs)
          (fun e2 he2 => hok e2 (List.mem_cons_of_mem _ he2)) hexec

/-- Counterexample for C2: job 1 is scheduled at time 0; its timer fires
and the firing is enqueued; before it is dispatched, job 1 is
rescheduled for time 5 (so the second `Schedule` call happens before the
first firing is delivered, as the claim allows).  The callback then runs
twice — at clock 0 (the stale firing, before the second scheduled time)
and again at clock 5 — refuting both "fires exactly once for that id"
and "at the second (most recent) scheduled time". -/
theorem c2_reschedule_counterexample :
    ((NewSched 1).exec [Ev.esch 0 1, Ev.efire 0, Ev.esch 5 1, Ev.edisp [],
      Ev.etick, Ev.etick, Ev.etick, Ev.etick, Ev.etick, Ev.efire 1,
      Ev.edisp []]).map Sched.log = some [(1, 0), (1, 5)] := by
  rfl

/-- C2 amended: if `Schedule` is called twice for the same id and the
second call happens before the first timer fires (not merely before the
first firing is delivered), then the first timer is stopped while still
pending and the callback fires exactly once for that id, at or after the
second scheduled time, in every interleaving run to quiescence. -/
theorem c2_reschedule_last_write_wins (cap a1 a2 id0 : Nat)
    (tr1 tr2 : List Ev) (s : Sched)
    (hok1 : ∀ e ∈ tr1, evOkPre a1 id0 e = true)
    (hone : schCount tr1 = 1)
    (hok2 : ∀ e ∈ tr2, evOk2 e = true)
    (hexec : (NewSched cap).exec (tr1 ++ Ev.esch a2 id0 :: tr2) = some s)
    (hquiet : (∀ tm ∈ s.timers, tm.status ≠ TStatus.armed) ∧ s.queue = []) :
    ∃ t, s.log = [(id0, t)] ∧ a2 ≤ t := by
  rw [exec_append] at hexec
  rcases hx : (NewSched cap).exec tr1 with _ | s1
  · rw [hx] at hexec
    exact Option.noConfusion hexec
  · rw [hx] at hexec
    have hinv0 : C2PreInv cap a1 id0 0 (NewSched cap) := Or.inl ⟨rfl, 0, rfl⟩
    have hpre := c2_pre_exec tr1 cap a1 id0 0 (NewSched cap) s1 hinv0 hok1
      (by omega) hx
    rcases hpre with ⟨h0, _⟩ | ⟨_, k, rfl⟩
    · omega
    · have hstep1 : (mkB1 cap k a1 id0).step (Ev.esch a2 id0) =
          some (mkC1 cap k a1 a2 id0) := by
        simp only [Sched.step, mkB1, Sched.Schedule, Bool.false_eq_true, if_false,
          Option.some_inj]
        simp [mapGet, mapSet, stopTimer, mkC1, List.getElem?_cons_zero, List.getElem?_cons_succ, List.getElem?_nil]
      have hexec2 : (mkC1 cap k a1 a2 id0).exec tr2 = some s := by
        rw [← exec_cons_some tr2 hstep1]
        exact hexec
      have hpost := c2_post_exec tr2 cap a1 a2 id0 (mkC1 cap k a1 a2 id0) s
        (Or.inl ⟨k, rfl⟩) hok2 hexec2
      rcases hpost with ⟨k2, rfl⟩ | ⟨k2, hk2, rfl⟩ | ⟨k2, t, ht, rfl⟩
      · exact absurd rfl (hquiet.1 ⟨id0, a2, TStatus.armed⟩ (by simp [mkC1]))
      · exact absurd hquiet.2 (by simp [mkC2])
      · exact ⟨t, rfl, ht⟩

/-- Witness for the amended C2: schedule job 3 at time 2, reschedule it
for time 6 before the first timer fires, then fire and dispatch: the log
shows exactly one firing, at clock 6. -/
theorem c2_reschedule_last_write_wins_witness :
    ∃ t, (((NewSched 1).exec ([Ev.esch 2 3] ++ Ev.esch 6 3 ::
      [Ev.etick, Ev.etick, Ev.etick, Ev.etick, Ev.etick, Ev.etick,
       Ev.efire 1, Ev.edisp []])).getD (NewSched 1)).log = [(3, t)] ∧ 6 ≤ t := by
  have hexec : (NewSched 1).exec ([Ev.esch 2 3] ++ Ev.esch 6 3 ::
      [Ev.etick, Ev.etick, Ev.etick, Ev.etick, Ev.etick, Ev.etick,
       Ev.efire 1, Ev.edisp []]) =
      some (((NewSched 1).exec ([Ev.esch 2 3] ++ Ev.esch 6 3 ::
        [Ev.etick, Ev.etick, Ev.etick, Ev.etick, Ev.etick, Ev.etick,
         Ev.efire 1, Ev.edisp []])).getD (NewSched 1)) := rfl
  exact c2_reschedule_last_write_wins 1 2 6 3 _ _ _ (by decide) (by decide)
    (by decide) hexec (by decide)

/-! ### C4: totality of Schedule and Cancel

`Cancel` is total in every state (reading and deleting on a nil map are
no-ops in Go).  `Schedule` is total before `Stop`; after `Stop` the
assignment `s.entries[id] = timer` writes to a nil map and panics. -/

/-- Counterexample for C4: calling `Schedule` after `Stop` crashes — the
map write on the nil `entries` map panics, refuting "returns normally
in every Scheduler state, including when called after Stop". -/
theorem c4_schedule_after_stop_counterexample :
    ((NewSched 1).exec [Ev.estop, Ev.esch 0 1]).map Sched.panicked = some true := by
  rfl

/-- C4 amended: `Schedule(at, id)` returns normally for every argument in
every live state reached before `Stop` (where the entries map is not
nil); after `Stop` it panics on the nil-map write.  `Cancel(id)` always
returns normally, and is an exact no-op for an id that has no map entry
(never scheduled, already canceled, or already fired and cleaned up). -/
theorem c4_total_operations :
    (∀ (s : Sched) (t0 id : Nat), s.panicked = false → s.entriesNil = false →
      ∃ s2, s.step (Ev.esch t0 id) = some s2 ∧ s2.panicked = false) ∧
    (∀ (s : Sched) (t0 id : Nat), s.panicked = false → s.entriesNil = true →
      ∃ s2, s.step (Ev.esch t0 id) = some s2 ∧ s2.panicked = true) ∧
    (∀ (s : Sched) (id : Nat), s.panicked = false →
      ∃ s2, s.step (Ev.ecan id) = some s2 ∧ s2.panicked = false ∧
        (mapGet s.entries id = none → s2 = s)) := by
  refine ⟨?_, ?_, ?_⟩
  · intro s t0 id hp hnil
    refine ⟨s.Schedule t0 id, by simp [Sched.step, hp], ?_⟩
    simp [Sched.Schedule, hnil, hp]
  · intro s t0 id hp hnil
    refine ⟨s.Schedule t0 id, by simp [Sched.step, hp], ?_⟩
    simp [Sched.Schedule, hnil]
  · intro s id hp
    refine ⟨s.Cancel id, by simp [Sched.step, hp], ?_, ?_⟩
    · rcases hmg : mapGet s.entries id with _ | i
      · simp [Sched.Cancel, hmg, hp]
      · simp [Sched.Cancel, hmg, hp]
    · intro hmg
      simp [Sched.Cancel, hmg]

/-- Witness for C4: a fresh scheduler accepts `Schedule` and `Cancel`
without panicking (and `Cancel` of an unknown id is a no-op), while a
stopped scheduler (nil entries map) panics on `Schedule`. -/
theorem c4_total_operations_witness :
    (∃ s2, (NewSched 1).step (Ev.esch 0 5) = some s2 ∧ s2.panicked = false) ∧
    (∃ s2, (Sched.mk [] true [] [] 1 [] 0 true false).step (Ev.esch 0 5) = some s2 ∧
      s2.panicked = true) ∧
    (∃ s2, (NewSched 1).step (Ev.ecan 5) = some s2 ∧ s2.panicked = false ∧
      (mapGet (NewSched 1).entries 5 = none → s2 = NewSched 1)) := by
  exact ⟨c4_total_operations.1 (NewSched 1) 0 5 rfl rfl,
         c4_total_operations.2.1 (Sched.mk [] true [] [] 1 [] 0 true false) 0 5 rfl rfl,
         c4_total_operations.2.2 (NewSched 1) 5 rfl⟩

/-! ### C3: one armed timer per id — supporting lemmas -/

theorem mapGet_mapSet_self {α β : Type} [DecidableEq α] :
    ∀ (l : List (α × β)) (k : α) (v : β), mapGet (mapSet l k v) k = some v := by
  intro l
  induction l with
  | nil => intro k v; simp [mapSet, mapGet]
  | cons p rest ih =>
      intro k v
      obtain ⟨k', v'⟩ := p
      by_cases hk : k' = k
      · subst hk
        simp [mapSet, mapGet]
      · simp only [mapSet, if_neg hk, mapGet, if_neg hk]
        exact ih k v

theorem mapGet_mapSet_other {α β : Type} [DecidableEq α] :
    ∀ (l : List (α × β)) (k j : α) (v : β), j ≠ k →
      mapGet (mapSet l k v) j = mapGet l j := by
  intro l
  induction l with
  | nil =>
      intro k j v hne
      simp only [mapSet, mapGet]
      rw [if_neg (fun hh => hne hh.symm)]
  | cons p rest ih =>
      intro k j v hne
      obtain ⟨k', v'⟩ := p
      by_cases hk : k' = k
      · subst hk
        simp only [mapSet, if_pos rfl, mapGet]
        rw [if_neg (fun hh => hne hh.symm), if_neg (fun hh => hne hh.symm)]
      · simp only [mapSet, if_neg hk, mapGet]
        by_cases hj : k' = j
        · rw [if_pos hj, if_pos hj]
        · rw [if_neg hj, if_neg hj]
          exact ih k j v hne

theorem mapSet_keys_mem {α β : Type} [DecidableEq α] :
    ∀ (l : List (α × β)) (k j : α) (v : β),
      j ∈ (mapSet l k v).map Prod.fst ↔ j ∈ l.map Prod.fst ∨ j = k := by
  intro l
  induction l with
  | nil => intro k j v; simp [mapSet]
  | cons p rest ih =>
      intro k j v
      obtain ⟨k', v'⟩ := p
      by_cases hk : k' = k
      · subst hk
        have hms : mapSet ((k', v') :: rest) k' v = (k', v) :: rest := by
          simp [mapSet]
        rw [hms]
        simp only [List.map_cons, List.mem_cons]
        tauto
      · have hms : mapSet ((k', v') :: rest) k v = (k', v') :: mapSet rest k v := by
          simp [mapSet, hk]
        rw [hms]
        simp only [List.map_cons, List.mem_cons, ih]
        tauto

theorem mapSet_keys_nodup {α β : Type} [DecidableEq α] :
    ∀ (l : List (α × β)) (k : α) (v : β),
      (l.map Prod.fst).Nodup → ((mapSet l k v).map Prod.fst).Nodup := by
  intro l
  induction l with
  | nil => intro k v _; simp [mapSet]
  | cons p rest ih =>
      intro k v hnd
      obtain ⟨k', v'⟩ := p
      simp only [List.map_cons, List.nodup_cons] at hnd
      by_cases hk : k' = k
      · subst hk
        have hms : mapSet ((k', v') :: rest) k' v = (k', v) :: rest := by
          simp [mapSet]
        rw [hms]
        simp only [List.map_cons, List.nodup_cons]
        exact hnd
      · have hms : mapSet ((k', v') :: rest) k v = (k', v') :: mapSet rest k v := by
          simp [mapSet, hk]
        rw [hms]
        simp only [List.map_cons, List.nodup_cons]
        refine ⟨?_, ih k v hnd.2⟩
        intro hmem
        rcases (mapSet_keys_mem rest k k' v).mp hmem with hh | hh
        · exact hnd.1 hh
        · exact hk hh

theorem mapSet_mem {α β : Type} [DecidableEq α] :
    ∀ (l : List (α × β)) (k : α) (v : β) (p : α × β),
      p ∈ mapSet l k v → p ∈ l ∨ p = (k, v) := by
  intro l
  induction l with
  | nil =>
      intro k v p hp
      simp [mapSet] at hp
      exact Or.inr hp
  | cons q rest ih =>
      intro k v p hp
      obtain ⟨k', v'⟩ := q
      by_cases hk : k' = k
      · subst hk
        have hms : mapSet ((k', v') :: rest) k' v = (k', v) :: rest := by
          simp [mapSet]
        rw [hms] at hp
        rcases List.mem_cons.mp hp with hh | hh
        · exact Or.inr hh
        · exact Or.inl (List.mem_cons_of_mem _ hh)
      · have hms : mapSet ((k', v') :: rest) k v = (k', v') :: mapSet rest k v := by
          simp [mapSet, hk]
        rw [hms] at hp
        rcases List.mem_cons.mp hp with hh | hh
        · exact Or.inl (hh ▸ List.mem_cons_self _ _)
        · rcases ih k v p hh with h2 | h2
          · exact Or.inl (List.mem_cons_of_mem _ h2)
          · exact Or.inr h2

theorem mapGet_mapDel_other {α β : Type} [DecidableEq α] :
    ∀ (l : List (α × β)) (k j : α), j ≠ k →
      mapGet (mapDel l k) j = mapGet l j := by
  intro l
  induction l with
  | nil => intro k j _; rfl
  | cons p rest ih =>
      intro k j hne
      obtain ⟨k', v'⟩ := p
      by_cases hk : k' = k
      · subst hk
        simp only [mapDel, List.filter_cons]
        rw [if_neg (by simp)]
        simp only [mapGet]
        rw [if_neg (fun hh => hne hh.symm)]
        exact ih k' j hne
      · simp only [mapDel, List.filter_cons]
        rw [if_pos (by simp [hk])]
        simp only [mapGet]
        by_cases hj : k' = j
        · rw [if_pos hj, if_pos hj]
        · rw [if_neg hj, if_neg hj]
          exact ih k j hne

/-! get? lemmas -/

theorem getq_append_lt {α : Type} :
    ∀ (l t : List α) (i : Nat), i < l.length → (l ++ t)[i]? = l[i]? := by
  intro l
  induction l with
  | nil => intro t i h; simp at h
  | cons a l' ih =>
      intro t i h
      cases i with
      | zero =>
          rw [List.cons_append, List.getElem?_cons_zero, List.getElem?_cons_zero]
      | succ n =>
          rw [List.cons_append, List.getElem?_cons_succ, List.getElem?_cons_succ]
          exact ih t n (by simpa using h)

theorem getq_append_len {α : Type} :
    ∀ (l : List α) (x : α), (l ++ [x])[l.length]? = some x := by
  intro l
  induction l with
  | nil => intro x; rfl
  | cons a l' ih =>
      intro x
      rw [List.cons_append, List.length_cons, List.getElem?_cons_succ]
      exact ih x

theorem getq_len_le {α : Type} :
    ∀ (l : List α) (i : Nat), l.length ≤ i → l[i]? = none := by
  intro l
  induction l with
  | nil => intro i _; simp
  | cons a l' ih =>
      intro i h
      cases i with
      | zero => simp at h
      | succ n =>
          rw [List.getElem?_cons_succ]
          exact ih n (by simpa using h)

theorem getq_set_self {α : Type} :
    ∀ (l : List α) (i : Nat) (v : α), i < l.length → (l.set i v)[i]? = some v := by
  intro l
  induction l with
  | nil => intro i v h; simp at h
  | cons a t ih =>
      intro i v h
      cases i with
      | zero => rw [List.set_cons_zero, List.getElem?_cons_zero]
      | succ n =>
          rw [List.set_cons_succ, List.getElem?_cons_succ]
          exact ih n v (by simpa using h)

theorem getq_set_other {α : Type} :
    ∀ (l : List α) (i j : Nat) (v : α), i ≠ j → (l.set i v)[j]? = l[j]? := by
  intro l
  induction l with
  | nil => intro i j v _; simp [List.set]
  | cons a t ih =>
      intro i j v hne
      cases i with
      | zero =>
          cases j with
          | zero => exact absurd rfl hne
          | succ m =>
              rw [List.set_cons_zero, List.getElem?_cons_succ, List.getElem?_cons_succ]
      | succ n =>
          cases j with
          | zero =>
              rw [List.set_cons_succ, List.getElem?_cons_zero, List.getElem?_cons_zero]
          | succ m =>
              rw [List.set_cons_succ, List.getElem?_cons_succ, List.getElem?_cons_succ]
              exact ih n m v (fun h => hne (by rw [h]))

/-! stopTimer and stopAllEntries lemmas -/

theorem stopTimer_length (ts : List STimer) (i : Nat) :
    (stopTimer ts i).length = ts.length := by
  rcases hg : ts[i]? with _ | t
  · have he : stopTimer ts i = ts := by
      simp [stopTimer, hg]
    rw [he]
  · have he : stopTimer ts i =
        (if t.status = TStatus.armed then ts.set i { t with status := TStatus.stoppedT }
         else ts) := by
      simp [stopTimer, hg]
    rw [he]
    by_cases h : t.status = TStatus.armed
    · rw [if_pos h]
      simp
    · rw [if_neg h]

theorem stopTimer_get_other (ts : List STimer) (i j : Nat) (hne : i ≠ j) :
    (stopTimer ts i)[j]? = ts[j]? := by
  rcases hg : ts[i]? with _ | t
  · have he : stopTimer ts i = ts := by
      simp [stopTimer, hg]
    rw [he]
  · have he : stopTimer ts i =
        (if t.status = TStatus.armed then ts.set i { t with status := TStatus.stoppedT }
         else ts) := by
      simp [stopTimer, hg]
    rw [he]
    by_cases h : t.status = TStatus.armed
    · rw [if_pos h]
      exact getq_set_other ts i j _ hne
    · rw [if_neg h]

theorem stopTimer_not_armed_self (ts : List STimer) (i : Nat) (tm : STimer)
    (hget : (stopTimer ts i)[i]? = some tm) : tm.status ≠ TStatus.armed := by
  rcases hg : ts[i]? with _ | t
  · have he : stopTimer ts i = ts := by
      simp [stopTimer, hg]
    rw [he, hg] at hget
    exact Option.noConfusion hget
  · have he : stopTimer ts i =
        (if t.status = TStatus.armed then ts.set i { t with status := TStatus.stoppedT }
         else ts) := by
      simp [stopTimer, hg]
    rw [he] at hget
    by_cases h : t.status = TStatus.armed
    · rw [if_pos h] at hget
      have hlt : i < ts.length := by
        by_contra hge
        rw [getq_len_le ts i (Nat.le_of_not_lt hge)] at hg
        exact Option.noConfusion hg
      rw [getq_set_self ts i _ hlt] at hget
      obtain rfl := Option.some_inj.mp hget
      simp
    · rw [if_neg h, hg] at hget
      obtain rfl := Option.some_inj.mp hget
      exact h

theorem stopTimer_armed_back (ts : List STimer) (i j : Nat) (tm : STimer)
    (hget : (stopTimer ts i)[j]? = some tm) (harm : tm.status = TStatus.armed) :
    ts[j]? = some tm := by
  by_cases hij : i = j
  · subst hij
    exact absurd harm (stopTimer_not_armed_self ts i tm hget)
  · rw [stopTimer_get_other ts i j hij] at hget
    exact hget

theorem stopTimer_keeps_not_armed (ts : List STimer) (i j : Nat)
    (h : ∀ tm, ts[j]? = some tm → tm.status ≠ TStatus.armed) :
    ∀ tm, (stopTimer ts i)[j]? = some tm → tm.status ≠ TStatus.armed := by
  intro tm hget harm
  exact h tm (stopTimer_armed_back ts i j tm hget harm) harm

theorem stopAllEntries_length :
    ∀ (es : List (Nat × Nat)) (ts : List STimer),
      (stopAllEntries ts es).length = ts.length := by
  intro es
  induction es with
  | nil => intro ts; rfl
  | cons p rest ih =>
      intro ts
      obtain ⟨k, i⟩ := p
      simp only [stopAllEntries]
      rw [ih, stopTimer_length]

theorem stopAll_no_armed :
    ∀ (es : List (Nat × Nat)) (ts : List STimer),
      (∀ (i : Nat) (tm : STimer), ts[i]? = some tm → tm.status = TStatus.armed →
        ∃ k, (k, i) ∈ es) →
      ∀ (i : Nat) (tm : STimer), (stopAllEntries ts es)[i]? = some tm →
        tm.status ≠ TStatus.armed := by
  intro es
  induction es with
  | nil =>
      intro ts h i tm hget harm
      obtain ⟨k, hk⟩ := h i tm hget harm
      simp at hk
  | cons p rest ih =>
      intro ts h i tm hget
      obtain ⟨k0, i0⟩ := p
      simp only [stopAllEntries] at hget
      refine ih (stopTimer ts i0) ?_ i tm hget
      intro j tmj hj harmj
      have hts : ts[j]? = some tmj := stopTimer_armed_back ts i0 j tmj hj harmj
      obtain ⟨k, hk⟩ := h j tmj hts harmj
      rcases List.mem_cons.mp hk with hh | hh
      · exfalso
        have hji : j = i0 := congrArg Prod.snd hh
        subst hji
        exact stopTimer_not_armed_self ts j tmj hj harmj
      · exact ⟨k, hh⟩

/-- The map entry of `id`, if any, points at an armed timer.  This is
what the post-callback `delete(s.entries, id)` in `run` destroys when
`id` was rescheduled between its firing and the end of its dispatch. -/
def entryArmed (s : Sched) (id : Nat) : Bool :=
  match mapGet s.entries id with
  | some i =>
      match s.timers[i]? with
      | some tm => decide (tm.status = TStatus.armed)
      | none => false
  | none => false

/-- A dispatch step is safe when the id being dispatched has no armed
replacement timer in the map and the callback does not reschedule that
same id; every other event is always safe. -/
def safeEv (s : Sched) : Ev → Bool
  | .edisp acts =>
      (match s.queue with
       | [] => true
       | id :: _ =>
           !(entryArmed s id) &&
           acts.all (fun a =>
             match a with
             | CAct.csch _ j => decide (j ≠ id)
             | CAct.ccan _ => true))
  | _ => true

def safeTrace (s : Sched) : List Ev → Bool
  | [] => true
  | e :: tr =>
      safeEv s e &&
      (match s.step e with
       | some s1 => safeTrace s1 tr
       | none => true)

/-- Scheduler state invariant: map keys are unique, a nil map only
occurs after shutdown, every map entry points into the timer store, and
every armed timer is reachable from the map under its own job id. -/
def SchedInv (s : Sched) : Prop :=
  (s.entries.map Prod.fst).Nodup ∧
  (s.entriesNil = true → s.doneClosed = true) ∧
  (∀ p ∈ s.entries, p.2 < s.timers.length) ∧
  (∀ (i : Nat) (tm : STimer), s.timers[i]? = some tm →
    tm.status = TStatus.armed → mapGet s.entries tm.jid = some i)

theorem filter_length_le_one {α : Type} :
    ∀ (l : List α) (p : α → Bool),
      (∀ (i j : Nat) (x y : α), l[i]? = some x → l[j]? = some y →
        p x = true → p y = true → i = j) →
      (l.filter p).length ≤ 1 := by
  intro l
  induction l with
  | nil => intro p _; simp
  | cons a t ih =>
      intro p h
      by_cases hpa : p a = true
      · rw [List.filter_cons]
        rw [if_pos hpa]
        have hnil : t.filter p = [] := by
          rw [List.filter_eq_nil_iff]
          intro x hx hpx
          obtain ⟨n, hn, hxn⟩ := List.getElem_of_mem hx
          have hx? : t[n]? = some x := by
            rw [List.getElem?_eq_getElem hn, hxn]
          have h0 : (a :: t)[0]? = some a := List.getElem?_cons_zero
          have hs : (a :: t)[n + 1]? = some x := by
            rw [List.getElem?_cons_succ]
            exact hx?
          exact Nat.noConfusion (h 0 (n + 1) a x h0 hs hpa hpx)
        rw [hnil]
        simp
      · rw [List.filter_cons, if_neg hpa]
        refine ih p ?_
        intro i j x y hx hy hpx hpy
        have := h (i + 1) (j + 1) x y
          (by rw [List.getElem?_cons_succ]; exact hx)
          (by rw [List.getElem?_cons_succ]; exact hy) hpx hpy
        omega

theorem inv_armedFor_le_one (s : Sched) (hinv : SchedInv s) (id : Nat) :
    armedFor s id ≤ 1 := by
  refine filter_length_le_one s.timers _ ?_
  intro i j x y hx hy hpx hpy
  simp only [Bool.and_eq_true, decide_eq_true_eq] at hpx hpy
  have h1 := hinv.2.2.2 i x hx hpx.2
  have h2 := hinv.2.2.2 j y hy hpy.2
  rw [hpx.1] at h1
  rw [hpy.1] at h2
  rw [h1] at h2
  exact Option.some_inj.mp h2

theorem schedule_inv (s : Sched) (t0 id : Nat) (hinv : SchedInv s)
    (hnil : s.entriesNil = false) : SchedInv (s.Schedule t0 id) := by
  obtain ⟨h1, h2, h3, h4⟩ := hinv
  rcases hmg : mapGet s.entries id with _ | i0
  · have he : s.Schedule t0 id =
        { s with timers := s.timers ++ [⟨id, t0, TStatus.armed⟩],
                 entries := mapSet s.entries id s.timers.length } := by
      simp [Sched.Schedule, hmg, hnil]
    rw [he]
    refine ⟨mapSet_keys_nodup _ _ _ h1, fun hh => h2 hh, ?_, ?_⟩
    · intro p hp
      have hlen : (s.timers ++ [(⟨id, t0, TStatus.armed⟩ : STimer)]).length =
          s.timers.length + 1 := by simp
      rw [hlen]
      rcases mapSet_mem _ _ _ p hp with hh | hh
      · have := h3 p hh
        omega
      · rw [hh]
        omega
    · intro i tm hget harm
      rcases Nat.lt_trichotomy i s.timers.length with hlt | heq | hgt
      · rw [getq_append_lt _ _ i hlt] at hget
        have hmapped := h4 i tm hget harm
        have hjid : tm.jid ≠ id := by
          intro hh
          rw [hh, hmg] at hmapped
          exact Option.noConfusion hmapped
        rw [mapGet_mapSet_other _ _ _ _ hjid]
        exact hmapped
      · subst heq
        rw [getq_append_len] at hget
        obtain rfl := Option.some_inj.mp hget
        exact mapGet_mapSet_self _ _ _
      · have hge : (s.timers ++ [(⟨id, t0, TStatus.armed⟩ : STimer)]).length ≤ i := by
          have hlen : (s.timers ++ [(⟨id, t0, TStatus.armed⟩ : STimer)]).length =
              s.timers.length + 1 := by simp
          omega
        rw [getq_len_le _ i hge] at hget
        exact Option.noConfusion hget
  · have he : s.Schedule t0 id =
        { s with timers := stopTimer s.timers i0 ++ [⟨id, t0, TStatus.armed⟩],
                 entries := mapSet s.entries id (stopTimer s.timers i0).length } := by
      simp [Sched.Schedule, hmg, hnil]
    rw [he]
    have hstl : (stopTimer s.timers i0).length = s.timers.length := stopTimer_length _ _
    refine ⟨mapSet_keys_nodup _ _ _ h1, fun hh => h2 hh, ?_, ?_⟩
    · intro p hp
      have hlen : (stopTimer s.timers i0 ++ [(⟨id, t0, TStatus.armed⟩ : STimer)]).length =
          s.timers.length + 1 := by simp [hstl]
      rw [hlen]
      rcases mapSet_mem _ _ _ p hp with hh | hh
      · have := h3 p hh
        omega
      · rw [hh]
        omega
    · intro i tm hget harm
      rcases Nat.lt_trichotomy i (stopTimer s.timers i0).length with hlt | heq | hgt
      · rw [getq_append_lt _ _ i hlt] at hget
        have hts : s.timers[i]? = some tm := stopTimer_armed_back _ _ _ _ hget harm
        have hmapped := h4 i tm hts harm
        have hjid : tm.jid ≠ id := by
          intro hh
          rw [hh, hmg] at hmapped
          have hi : i0 = i := Option.some_inj.mp hmapped
          subst hi
          exact stopTimer_not_armed_self _ _ _ hget harm
        rw [mapGet_mapSet_other _ _ _ _ hjid]
        exact hmapped
      · subst heq
        rw [getq_append_len] at hget
        obtain rfl := Option.some_inj.mp hget
        exact mapGet_mapSet_self _ _ _
      · have hge : (stopTimer s.timers i0 ++ [(⟨id, t0, TStatus.armed⟩ : STimer)]).length ≤ i := by
          have hlen : (stopTimer s.timers i0 ++ [(⟨id, t0, TStatus.armed⟩ : STimer)]).length =
              s.timers.length + 1 := by simp [hstl]
          omega
        rw [getq_len_le _ i hge] at hget
        exact Option.noConfusion hget

theorem cancel_inv (s : Sched) (id : Nat) (hinv : SchedInv s) :
    SchedInv (s.Cancel id) := by
  obtain ⟨h1, h2, h3, h4⟩ := hinv
  rcases hmg : mapGet s.entries id with _ | i0
  · have he : s.Cancel id = s := by simp [Sched.Cancel, hmg]
    rw [he]
    exact ⟨h1, h2, h3, h4⟩
  · have he : s.Cancel id =
        { s with timers := stopTimer s.timers i0, entries := mapDel s.entries id } := by
      simp [Sched.Cancel, hmg]
    rw [he]
    refine ⟨?_, fun hh => h2 hh, ?_, ?_⟩
    · exact List.Nodup.sublist ((List.filter_sublist _).map Prod.fst) h1
    · intro p hp
      have := h3 p (List.mem_of_mem_filter hp)
      rw [stopTimer_length]
      exact this
    · intro i tm hget harm
      have hts : s.timers[i]? = some tm := stopTimer_armed_back _ _ _ _ hget harm
      have hmapped := h4 i tm hts harm
      have hjid : tm.jid ≠ id := by
        intro hh
        rw [hh, hmg] at hmapped
        have hi : i0 = i := Option.some_inj.mp hmapped
        subst hi
        exact stopTimer_not_armed_self _ _ _ hget harm
      rw [mapGet_mapDel_other _ _ _ hjid]
      exact hmapped

theorem entryArmed_false_of (s : Sched) (id : Nat)
    (h : ∀ i, mapGet s.entries id = some i → ∀ tm, s.timers[i]? = some tm →
      tm.status ≠ TStatus.armed) :
    entryArmed s id = false := by
  rcases hmg : mapGet s.entries id with _ | i
  · simp [entryArmed, hmg]
  · rcases hg : s.timers[i]? with _ | tm
    · simp [entryArmed, hmg, hg]
    · simp only [entryArmed, hmg, hg]
      exact decide_eq_false (h i hmg tm hg)

theorem entryArmed_false_elim (s : Sched) (id : Nat) (hea : entryArmed s id = false) :
    ∀ i, mapGet s.entries id = some i → ∀ tm, s.timers[i]? = some tm →
      tm.status ≠ TStatus.armed := by
  intro i hmg tm hg harm
  simp [entryArmed, hmg, hg, harm] at hea

theorem schedule_entriesNil (s : Sched) (t0 j : Nat) (hnil : s.entriesNil = false) :
    (s.Schedule t0 j).entriesNil = false := by
  rcases hmg : mapGet s.entries j with _ | i0 <;>
    simp [Sched.Schedule, hmg, hnil]

theorem cancel_entriesNil (s : Sched) (j : Nat) (hnil : s.entriesNil = false) :
    (s.Cancel j).entriesNil = false := by
  rcases hmg : mapGet s.entries j with _ | i0 <;>
    simp [Sched.Cancel, hmg, hnil]

theorem schedule_entryArmed (s : Sched) (t0 j id : Nat) (hinv : SchedInv s)
    (hnil : s.entriesNil = false) (hne : j ≠ id)
    (hea : entryArmed s id = false) :
    entryArmed (s.Schedule t0 j) id = false := by
  obtain ⟨h1, h2, h3, h4⟩ := hinv
  rcases hmg : mapGet s.entries j with _ | i0
  · have he : s.Schedule t0 j =
        { s with timers := s.timers ++ [⟨j, t0, TStatus.armed⟩],
                 entries := mapSet s.entries j s.timers.length } := by
      simp [Sched.Schedule, hmg, hnil]
    rw [he]
    apply entryArmed_false_of
    intro i hmg2 tm hget harm
    have hmg2' : mapGet (mapSet s.entries j s.timers.length) id = some i := hmg2
    rw [mapGet_mapSet_other _ _ _ _ (fun hh => hne hh.symm)] at hmg2'
    have hlt : i < s.timers.length :=
      h3 (id, i) (mapGet_mem _ _ _ hmg2')
    have hget' : (s.timers ++ [(⟨j, t0, TStatus.armed⟩ : STimer)])[i]? = some tm := hget
    rw [getq_append_lt _ _ i hlt] at hget'
    exact entryArmed_false_elim s id hea i hmg2' tm hget' harm
  · have he : s.Schedule t0 j =
        { s with timers := stopTimer s.timers i0 ++ [⟨j, t0, TStatus.armed⟩],
                 entries := mapSet s.entries j (stopTimer s.timers i0).length } := by
      simp [Sched.Schedule, hmg, hnil]
    rw [he]
    apply entryArmed_false_of
    intro i hmg2 tm hget harm
    have hmg2' : mapGet (mapSet s.entries j (stopTimer s.timers i0).length) id =
        some i := hmg2
    rw [mapGet_mapSet_other _ _ _ _ (fun hh => hne hh.symm)] at hmg2'
    have hlt : i < s.timers.length :=
      h3 (id, i) (mapGet_mem _ _ _ hmg2')
    have hlt2 : i < (stopTimer s.timers i0).length := by
      rw [stopTimer_length]
      exact hlt
    have hget' : (stopTimer s.timers i0 ++ [(⟨j, t0, TStatus.armed⟩ : STimer)])[i]? =
        some tm := hget
    rw [getq_append_lt _ _ i hlt2] at hget'
    have hts : s.timers[i]? = some tm := stopTimer_armed_back _ _ _ _ hget' harm
    exact entryArmed_false_elim s id hea i hmg2' tm hts harm

theorem cancel_entryArmed (s : Sched) (j id : Nat)
    (hea : entryArmed s id = false) : entryArmed (s.Cancel j) id = false := by
  rcases hmg : mapGet s.entries j with _ | i0
  · have he : s.Cancel j = s := by simp [Sched.Cancel, hmg]
    rw [he]
    exact hea
  · have he : s.Cancel j =
        { s with timers := stopTimer s.timers i0, entries := mapDel s.entries j } := by
      simp [Sched.Cancel, hmg]
    rw [he]
    apply entryArmed_false_of
    intro i hmg2 tm hget harm
    have hmg2' : mapGet (mapDel s.entries j) id = some i := hmg2
    have hget' : (stopTimer s.timers i0)[i]? = some tm := hget
    by_cases hji : id = j
    · subst hji
      rw [mapGet_mapDel_self] at hmg2'
      exact Option.noConfusion hmg2'
    · rw [mapGet_mapDel_other _ _ _ hji] at hmg2'
      have hts := stopTimer_armed_back _ _ _ _ hget' harm
      exact entryArmed_false_elim s id hea i hmg2' tm hts harm

theorem applyAct_pres (s : Sched) (id : Nat) (a : CAct) (hinv : SchedInv s)
    (hnil : s.entriesNil = false) (hea : entryArmed s id = false)
    (hsafe : (match a with
      | CAct.csch _ j => decide (j ≠ id)
      | CAct.ccan _ => true) = true) :
    SchedInv (s.applyAct a) ∧ (s.applyAct a).entriesNil = false ∧
    entryArmed (s.applyAct a) id = false := by
  cases a with
  | csch t0 j =>
      have hne : j ≠ id := by simpa using hsafe
      exact ⟨schedule_inv s t0 j hinv hnil, schedule_entriesNil s t0 j hnil,
        schedule_entryArmed s t0 j id hinv hnil hne hea⟩
  | ccan j =>
      exact ⟨cancel_inv s j hinv, cancel_entriesNil s j hnil,
        cancel_entryArmed s j id hea⟩

theorem foldl_acts_pres :
    ∀ (acts : List CAct) (id : Nat) (s : Sched), SchedInv s →
      s.entriesNil = false → entryArmed s id = false →
      (∀ a ∈ acts, (match a with
        | CAct.csch _ j => decide (j ≠ id)
        | CAct.ccan _ => true) = true) →
      SchedInv (acts.foldl Sched.applyAct s) ∧
      (acts.foldl Sched.applyAct s).entriesNil = false ∧
      entryArmed (acts.foldl Sched.applyAct s) id = false := by
  intro acts
  induction acts with
  | nil => intro id s hinv hnil hea _; exact ⟨hinv, hnil, hea⟩
  | cons a rest ih =>
      intro id s hinv hnil hea hall
      have hp := applyAct_pres s id a hinv hnil hea (hall a (List.mem_cons_self _ _))
      rw [List.foldl_cons]
      exact ih id (s.applyAct a) hp.1 hp.2.1 hp.2.2
        (fun a2 ha2 => hall a2 (List.mem_cons_of_mem _ ha2))

theorem getq_some_lt {α : Type} (l : List α) (i : Nat) (x : α)
    (h : l[i]? = some x) : i < l.length := by
  by_contra hge
  rw [getq_len_le l i (Nat.le_of_not_lt hge)] at h
  exact Option.noConfusion h

theorem sched_step_inv (s s2 : Sched) (e : Ev) (hinv : SchedInv s)
    (hsafe : safeEv s e = true) (hstep : s.step e = some s2)
    (hp2 : s2.panicked = false) : SchedInv s2 := by
  obtain ⟨h1, h2, h3, h4⟩ := hinv
  by_cases hp : s.panicked = true
  · simp [Sched.step, hp] at hstep
  · have hpf : s.panicked = false := Bool.eq_false_iff.mpr hp
    cases e with
    | esch t0 id =>
        have hs2 : s2 = s.Schedule t0 id := by
          simp only [Sched.step, hpf, Bool.false_eq_true, if_false,
            Option.some_inj] at hstep
          exact hstep.symm
        by_cases hnil : s.entriesNil = true
        · exfalso
          have hpan : (s.Schedule t0 id).panicked = true := by
            rcases hmg : mapGet s.entries id with _ | i0 <;>
              simp [Sched.Schedule, hmg, hnil]
          rw [hs2] at hp2
          rw [hpan] at hp2
          exact Bool.noConfusion hp2
        · rw [hs2]
          exact schedule_inv s t0 id ⟨h1, h2, h3, h4⟩ (Bool.eq_false_iff.mpr hnil)
    | ecan id =>
        have hs2 : s2 = s.Cancel id := by
          simp only [Sched.step, hpf, Bool.false_eq_true, if_false,
            Option.some_inj] at hstep
          exact hstep.symm
        rw [hs2]
        exact cancel_inv s id ⟨h1, h2, h3, h4⟩
    | efire i =>
        rcases hg : s.timers[i]? with _ | tm
        · simp [Sched.step, hpf, hg] at hstep
        · have hstep2 : (if tm.status = TStatus.armed ∧ tm.fireAt ≤ s.clock ∧
              s.queue.length < s.cap then
                some { s with timers := s.timers.set i { tm with status := TStatus.firedT },
                              queue := s.queue ++ [tm.jid] }
              else none) = some s2 := by
            rw [← hstep]
            simp only [Sched.step, hpf, Bool.false_eq_true, if_false, hg]
          by_cases hc : tm.status = TStatus.armed ∧ tm.fireAt ≤ s.clock ∧
              s.queue.length < s.cap
          · rw [if_pos hc] at hstep2
            obtain rfl := Option.some_inj.mp hstep2
            refine ⟨h1, h2, ?_, ?_⟩
            · intro p hp3
              have := h3 p hp3
              simpa using this
            · intro j tm' hget harm
              by_cases hij : i = j
              · subst hij
                have hlt : i < s.timers.length := getq_some_lt _ _ _ hg
                have : (s.timers.set i { tm with status := TStatus.firedT })[i]? =
                    some { tm with status := TStatus.firedT } := getq_set_self _ _ _ hlt
                rw [this] at hget
                obtain rfl := Option.some_inj.mp hget
                exact absurd harm (by simp)
              · have : (s.timers.set i { tm with status := TStatus.firedT })[j]? =
                    s.timers[j]? := getq_set_other _ _ _ _ hij
                rw [this] at hget
                exact h4 j tm' hget harm
          · rw [if_neg hc] at hstep2
            exact Option.noConfusion hstep2
    | etick =>
        have hs2 : s2 = { s with clock := s.clock + 1, panicked := false } := by
          simp only [Sched.step, hpf, Bool.false_eq_true, if_false,
            Option.some_inj] at hstep
          exact hstep.symm
        rw [hs2]
        exact ⟨h1, h2, h3, h4⟩
    | estop =>
        by_cases hd : s.doneClosed = true
        · exfalso
          have hs2 : s2 = { s with doneClosed := true, panicked := true } := by
            simp only [Sched.step, hpf, Bool.false_eq_true, if_false, hd, if_true,
              Option.some_inj] at hstep
            exact hstep.symm
          rw [hs2] at hp2
          exact Bool.noConfusion hp2
        · have hs2 : s2 = { s with
              entries := [], entriesNil := true,
              timers := stopAllEntries s.timers s.entries,
              doneClosed := true, panicked := false } := by
            simp only [Sched.step, hpf, Bool.false_eq_true, if_false, hd,
              Option.some_inj] at hstep
            exact hstep.symm
          rw [hs2]
          refine ⟨by simp, fun _ => rfl, ?_, ?_⟩
          · intro p hp3
            simp at hp3
          · intro i tm hget harm
            exfalso
            refine stopAll_no_armed s.entries s.timers ?_ i tm hget harm
            intro j tmj hj harmj
            exact ⟨tmj.jid, mapGet_mem _ _ _ (h4 j tmj hj harmj)⟩
    | edisp acts =>
        by_cases hd : s.doneClosed = true
        · simp [Sched.step, hpf, hd] at hstep
        · have hdf : s.doneClosed = false := Bool.eq_false_iff.mpr hd
          rcases hq : s.queue with _ | ⟨id, rest⟩
          · simp [Sched.step, hpf, hdf, hq] at hstep
          · have hnil : s.entriesNil = false := by
              by_cases hn : s.entriesNil = true
              · rw [h2 hn] at hdf
                exact Bool.noConfusion hdf
              · exact Bool.eq_false_iff.mpr hn
            have hsafe2 : entryArmed s id = false ∧
                (∀ a ∈ acts, (match a with
                  | CAct.csch _ j => decide (j ≠ id)
                  | CAct.ccan _ => true) = true) := by
              simp only [safeEv, hq, Bool.and_eq_true, Bool.not_eq_eq_eq_not,
                Bool.not_true, List.all_eq_true] at hsafe
              exact hsafe
            simp only [Sched.step, hpf, Bool.false_eq_true, if_false, hdf, hq,
              Option.some_inj] at hstep
            have hinvS : SchedInv ({ s with
                queue := rest, log := s.log ++ [(id, s.clock)],
                doneClosed := false, panicked := false }) := by
              refine ⟨h1, ?_, h3, h4⟩
              intro hh
              exact Bool.noConfusion (hnil.symm.trans hh)
            have hfold := foldl_acts_pres acts id
              ({ s with
                 queue := rest, log := s.log ++ [(id, s.clock)],
                 doneClosed := false, panicked := false })
              hinvS hnil hsafe2.1 hsafe2.2
            rw [← hstep]
            obtain ⟨⟨f1, f2, f3, f4⟩, fnil, fea⟩ := hfold
            refine ⟨?_, ?_, ?_, ?_⟩
            · exact List.Nodup.sublist ((List.filter_sublist _).map Prod.fst) f1
            · intro hh
              exact Bool.noConfusion (fnil.symm.trans hh)
            · intro p hp3
              exact f3 p (List.mem_of_mem_filter hp3)
            · intro i tm hget harm
              have hmapped := f4 i tm hget harm
              have hjid : tm.jid ≠ id := by
                intro hh
                rw [hh] at hmapped
                exact entryArmed_false_elim _ id fea i hmapped tm hget harm
              have hdel : mapGet (mapDel (acts.foldl Sched.applyAct
                  ({ s with
                     queue := rest, log := s.log ++ [(id, s.clock)],
                     doneClosed := false, panicked := false })).entries id) tm.jid =
                  mapGet (acts.foldl Sched.applyAct
                  ({ s with
                     queue := rest, log := s.log ++ [(id, s.clock)],
                     doneClosed := false, panicked := false })).entries tm.jid :=
                mapGet_mapDel_other _ _ _ hjid
              rw [hdel]
              exact hmapped

theorem exec_panicked :
    ∀ (tr : List Ev) (s s2 : Sched), s.panicked = true →
      s.exec tr = some s2 → s2.panicked = true := by
  intro tr
  induction tr with
  | nil =>
      intro s s2 hp hexec
      obtain rfl := Option.some_inj.mp hexec
      exact hp
  | cons e tr ih =>
      intro s s2 hp hexec
      rw [exec_cons] at hexec
      have hs : s.step e = none := by
        simp [Sched.step, hp]
      rw [hs] at hexec
      exact Option.noConfusion hexec

theorem sched_exec_inv :
    ∀ (tr : List Ev) (s s2 : Sched), SchedInv s → safeTrace s tr = true →
      s.exec tr = some s2 → s2.panicked = false → SchedInv s2 := by
  intro tr
  induction tr with
  | nil =>
      intro s s2 hinv _ hexec _
      obtain rfl := Option.some_inj.mp hexec
      exact hinv
  | cons e tr ih =>
      intro s s2 hinv hsafe hexec hp2
      rw [exec_cons] at hexec
      rcases hs : s.step e with _ | s1
      · rw [hs] at hexec
        exact Option.noConfusion hexec
      · rw [hs] at hexec
        simp only [safeTrace, Bool.and_eq_true] at hsafe
        have hsafe1 : safeEv s e = true := hsafe.1
        have hsafetr : safeTrace s1 tr = true := by
          have := hsafe.2
          rw [hs] at this
          exact this
        have hp1 : s1.panicked = false := by
          by_cases hp1' : s1.panicked = true
          · rw [exec_panicked tr s1 s2 hp1' hexec] at hp2
            exact Bool.noConfusion hp2
          · exact Bool.eq_false_iff.mpr hp1'
        exact ih s1 s2 (sched_step_inv s s1 e hinv hsafe1 hs hp1) hsafetr hexec hp2

/-- Counterexample for C3: schedule job 1 at time 0; its timer fires and
is dispatched; the callback reschedules job 1 for time 5; the
post-callback cleanup `delete(s.entries, 1)` then removes the *new*
timer's map entry, orphaning the armed timer; a subsequent
`Schedule(9, 1)` finds no entry and arms a second timer — two live
timers are armed for job 1 at once, refuting the claimed invariant. -/
theorem c3_one_timer_counterexample :
    ((NewSched 1).exec [Ev.esch 0 1, Ev.efire 0, Ev.edisp [CAct.csch 5 1],
      Ev.esch 9 1]).map (fun s => armedFor s 1) = some 2 := by
  rfl

/-- C3 amended: at most one armed timer exists per JobID, and every
operation — Schedule, Cancel, Stop, timer firing and dispatch (including
a callback that re-enters the scheduler) — preserves this, provided each
dispatch is safe: when an id is dispatched, its map entry must not point
at a newly armed replacement timer and the callback must not reschedule
that same id.  Without that proviso the post-callback map cleanup
orphans the armed replacement timer and a later Schedule arms a second
timer for the same id, as the counterexample shows. -/
theorem c3_one_timer_invariant (cap : Nat) (tr : List Ev) (s : Sched)
    (hsafe : safeTrace (NewSched cap) tr = true)
    (hexec : (NewSched cap).exec tr = some s)
    (hpan : s.panicked = false) (id : Nat) :
    armedFor s id ≤ 1 := by
  have hinv0 : SchedInv (NewSched cap) := by
    refine ⟨by simp [NewSched], by simp [NewSched], ?_, ?_⟩
    · intro p hp
      simp [NewSched] at hp
    · intro i tm hget _
      have : (NewSched cap).timers[i]? = none := by
        simp [NewSched]
      rw [this] at hget
      exact Option.noConfusion hget
  exact inv_armedFor_le_one s
    (sched_exec_inv tr (NewSched cap) s hinv0 hsafe hexec hpan) id

/-- Witness for the amended C3: a safe trace — schedule job 1, fire,
dispatch with a callback that schedules a different job 2, then schedule
job 2 again — leaves at most one armed timer for job 1. -/
theorem c3_one_timer_invariant_witness :
    armedFor (((NewSched 1).exec [Ev.esch 0 1, Ev.efire 0,
      Ev.edisp [CAct.csch 5 2], Ev.esch 9 2]).getD (NewSched 1)) 1 ≤ 1 := by
  have hexec : (NewSched 1).exec [Ev.esch 0 1, Ev.efire 0,
      Ev.edisp [CAct.csch 5 2], Ev.esch 9 2] =
      some (((NewSched 1).exec [Ev.esch 0 1, Ev.efire 0,
        Ev.edisp [CAct.csch 5 2], Ev.esch 9 2]).getD (NewSched 1)) := rfl
  exact c3_one_timer_invariant 1 _ _ (by decide) hexec (by decide) 1

end Wakey
